import Mathlib

/-!
Verification development for the producer-ai-sync repository.

We shallowly embed the resumable synchronization engine: the manifest data
model, the catalog reconciler (`mergeFavorites` / `mergeTracks`), the
filesystem verifier (`verifyDownloadedFiles`), the paginated listing fetcher
(`fetchAllFavorites` / `fetchAllPublished`), the manifest loader
(`loadManifest`), and the two acquisition loops (`downloadPendingFavorites`
from the legacy monolith and `downloadPendingTracks` from the modular
refactor).

Modelling conventions:
* JS `Record<string, T>` objects become association lists with first-match
  lookup; assignment to an existing key updates it in place, assignment to a
  new key appends (JS insertion order).
* Timestamps (`createdAt`, `lastAttempt`, `lastRun`) are modelled by natural
  numbers (their epoch value / the loop step at which they were written).
* `undefined`/`null` optional fields collapse to `Option.none`.
* Filesystem and network effects are modelled by explicit inputs: the output
  directory listing, the per-item attempt outcome, the per-page API response.
-/

namespace ProducerAiSync

/-- The tri-state download status of `type DownloadStatus` in the source. -/
inductive DownloadStatus where
  | pending
  | downloaded
  | failed
deriving DecidableEq, Repr

/-- One manifest entry (`FavoriteEntry` in sync-favorites.ts, `TrackMetadata`
in core/types.ts; the two interfaces are identical). -/
structure FavoriteEntry where
  id : String
  title : String
  artist : String
  authorId : String
  genre : String
  prompt : Option String
  lyrics : Option String
  model : Option String
  seed : Option Int
  playCount : Option Nat
  favoriteCount : Option Nat
  songUrl : String
  status : DownloadStatus
  driveFilename : Option String
  fileSizeMB : Option Nat
  lastAttempt : Option Nat
  error : Option String
  createdAt : Option Nat
deriving DecidableEq, Repr

/-- A remote listing item (`GenerationData` in the source).  An empty `id`
string models a missing/empty id (falsy in JS).  `conditions` carries each
condition's `prompt` field (`null` collapsed to `none`). -/
structure GenerationData where
  id : String
  title : Option String
  lyrics : Option String
  created_at : Option Nat
  author_id : Option String
  sound : Option String
  seed : Option Int
  model_display_name : Option String
  play_count : Option Nat
  favorite_count : Option Nat
  conditions : List (Option String)
deriving DecidableEq, Repr

/-- The persisted store (`Manifest` in the source).  `tracks` is the
`Record<string, FavoriteEntry>` map, as an insertion-ordered association
list with unique keys. -/
structure Manifest where
  lastRun : Nat
  source : String
  totalFavorites : Option Nat
  tracks : List (String × FavoriteEntry)
deriving DecidableEq, Repr

/-- Association-list lookup: first match wins (JS object key lookup). -/
def alistGet {α : Type} : List (String × α) → String → Option α
  | [], _ => none
  | (k, v) :: rest, key => if k = key then some v else alistGet rest key

/-- Association-list in-place update of the first matching key
(JS assignment to an existing object key keeps its position). -/
def alistMap {α : Type} : List (String × α) → String → (α → α) → List (String × α)
  | [], _, _ => []
  | (k, v) :: rest, key, f =>
      if k = key then (k, f v) :: rest else (k, v) :: alistMap rest key f

/-- Keys of an association list. -/
def alistKeys {α : Type} (l : List (String × α)) : List String := l.map Prod.fst

/-- The base URL constant `BASE_URL` / `config.baseUrl`. -/
def BASE_URL : String := "https://www.producer.ai"

/-- Characters replaced by "-" in `sanitizeFilename`. -/
def isBadFilenameChar (c : Char) : Bool :=
  c = '/' || c = '\\' || c = '?' || c = '%' || c = '*' || c = ':' ||
  c = '|' || c = '"' || c = '<' || c = '>'

/-- Helper for the `\s+` to single-space collapse: the flag records whether
the previous character was whitespace. -/
def collapseWsAux : Bool → List Char → List Char
  | _, [] => []
  | prev, c :: rest =>
      if c.isWhitespace then
        if prev then collapseWsAux true rest
        else ' ' :: collapseWsAux true rest
      else c :: collapseWsAux false rest

/-- `sanitizeFilename` from core/utils.ts: replace filesystem-hostile
characters with "-", collapse whitespace runs to one space, trim. -/
def sanitizeFilename (name : String) : String :=
  let replaced := name.toList.map (fun c => if isBadFilenameChar c then '-' else c)
  let collapsed := collapseWsAux false replaced
  let trimmed := ((collapsed.dropWhile Char.isWhitespace).reverse.dropWhile
    Char.isWhitespace).reverse
  String.mk trimmed

/-- The `gen.conditions?.[0]?.prompt ?? undefined` access in merge. -/
def genPrompt (g : GenerationData) : Option String :=
  match g.conditions with
  | [] => none
  | c :: _ => c

/-- The output-directory scan in merge and verify: `readdir` results filtered
by file extension; a failed `readdir` (the caught exception) yields the empty
set, modelled by `none`. -/
def driveFileSet (listing : Option (List String)) (ext : String) : List String :=
  match listing with
  | none => []
  | some files => files.filter (fun f => f.endsWith ext)

/-- The fresh entry created by merge for a first-seen id (the create branch of
`mergeFavorites` / `mergeTracks`). -/
def newEntry (umap : List (String × String)) (files : List String) (ext : String)
    (g : GenerationData) : FavoriteEntry :=
  let songId := g.id
  let title := g.title.getD "Untitled"
  let authorId := g.author_id.getD ""
  let artist := (alistGet umap authorId).getD "Unknown Artist"
  let uuidFilename := songId ++ ext
  let titleFilename := sanitizeFilename (artist ++ " - " ++ title ++ ext)
  let alreadyOnDrive := files.contains uuidFilename || files.contains titleFilename
  { id := songId
    title := title
    artist := artist
    authorId := authorId
    genre := g.sound.getD "Unknown"
    prompt := genPrompt g
    lyrics := g.lyrics
    model := g.model_display_name
    seed := g.seed
    playCount := g.play_count
    favoriteCount := g.favorite_count
    songUrl := BASE_URL ++ "/song/" ++ songId
    status := if alreadyOnDrive then .downloaded else .pending
    driveFilename :=
      if files.contains uuidFilename then some uuidFilename
      else if files.contains titleFilename then some titleFilename
      else none
    fileSizeMB := none
    lastAttempt := none
    error := none
    createdAt := g.created_at }

/-- The metadata refresh applied by merge to an existing entry (the update
branch: descriptive fields overwritten, everything else untouched). -/
def applyMeta (umap : List (String × String)) (g : GenerationData)
    (e : FavoriteEntry) : FavoriteEntry :=
  { e with
    title := g.title.getD "Untitled"
    artist := (alistGet umap (g.author_id.getD "")).getD "Unknown Artist"
    authorId := g.author_id.getD ""
    genre := g.sound.getD "Unknown"
    prompt := genPrompt g
    lyrics := g.lyrics
    model := g.model_display_name
    seed := g.seed
    playCount := g.play_count
    favoriteCount := g.favorite_count
    createdAt := g.created_at }

/-- The per-listing-item loop body of `mergeFavorites` / `mergeTracks`,
recursing over the remote listing.  Returns the updated tracks map and the
count of newly created entries (`newCount`). -/
def mergeGo (umap : List (String × String)) (files : List String) (ext : String) :
    List (String × FavoriteEntry) → List GenerationData →
    List (String × FavoriteEntry) × Nat
  | ts, [] => (ts, 0)
  | ts, g :: gs =>
      if g.id = "" then mergeGo umap files ext ts gs
      else
        match alistGet ts g.id with
        | some _ => mergeGo umap files ext (alistMap ts g.id (applyMeta umap g)) gs
        | none =>
            let r := mergeGo umap files ext (ts ++ [(g.id, newEntry umap files ext g)]) gs
            (r.1, r.2 + 1)

/-- `mergeTracks` from platforms/producer-ai/api.ts: merge a fetched listing
into the manifest.  `listing` is the output-directory contents (`none` when
`readdir` fails), `ext` is `config.fileExtension`. -/
def mergeTracks (m : Manifest) (gens : List GenerationData)
    (umap : List (String × String)) (listing : Option (List String))
    (ext : String) : Manifest × Nat :=
  let files := driveFileSet listing ext
  let r := mergeGo umap files ext m.tracks gens
  ({ m with tracks := r.1 }, r.2)

/-- `mergeFavorites` from sync-favorites.ts: identical logic with the ".wav"
extension fixed. -/
def mergeFavorites (m : Manifest) (gens : List GenerationData)
    (umap : List (String × String)) (listing : Option (List String)) :
    Manifest × Nat :=
  mergeTracks m gens umap listing ".wav"

lemma alistGet_map_self {α : Type} (l : List (String × α)) (k : String) (f : α → α) :
    alistGet (alistMap l k f) k = (alistGet l k).map f := by
  induction l with
  | nil => simp [alistGet, alistMap]
  | cons p rest ih =>
      obtain ⟨k', v⟩ := p
      by_cases h : k' = k
      · subst h; simp [alistGet, alistMap]
      · simp [alistGet, alistMap, h, ih]

lemma alistGet_map_ne {α : Type} (l : List (String × α)) (k k' : String) (f : α → α)
    (h : k ≠ k') : alistGet (alistMap l k f) k' = alistGet l k' := by
  induction l with
  | nil => simp [alistGet, alistMap]
  | cons p rest ih =>
      obtain ⟨k₀, v⟩ := p
      by_cases h₀ : k₀ = k
      · subst h₀; simp [alistGet, alistMap, h]
      · simp only [alistMap, if_neg h₀]
        by_cases h₁ : k₀ = k'
        · subst h₁; simp [alistGet]
        · simp [alistGet, h₁, ih]

lemma alistMap_map {α : Type} (l : List (String × α)) (k : String) (f g : α → α) :
    alistMap (alistMap l k f) k g = alistMap l k (fun v => g (f v)) := by
  induction l with
  | nil => simp [alistMap]
  | cons p rest ih =>
      obtain ⟨k₀, v⟩ := p
      by_cases h : k₀ = k
      · subst h; simp [alistMap]
      · simp [alistMap, h, ih]

lemma alistMap_congr {α : Type} (l : List (String × α)) (k : String) (f g : α → α)
    (h : ∀ v, alistGet l k = some v → f v = g v) : alistMap l k f = alistMap l k g := by
  induction l with
  | nil => simp [alistMap]
  | cons p rest ih =>
      obtain ⟨k₀, v⟩ := p
      by_cases h₀ : k₀ = k
      · subst h₀
        have := h v (by simp [alistGet])
        simp [alistMap, this]
      · simp only [alistMap, if_neg h₀]
        have : alistMap rest k f = alistMap rest k g := by
          refine ih (fun v' hv' => h v' ?_)
          simpa [alistGet, h₀] using hv'
        simp [this]

lemma alistMap_of_get_none {α : Type} (l : List (String × α)) (k : String) (f : α → α)
    (h : alistGet l k = none) : alistMap l k f = l := by
  induction l with
  | nil => simp [alistMap]
  | cons p rest ih =>
      obtain ⟨k₀, v⟩ := p
      by_cases h₀ : k₀ = k
      · subst h₀; simp [alistGet] at h
      · simp only [alistGet, if_neg h₀] at h
        simp [alistMap, h₀, ih h]

lemma alistMap_fix {α : Type} (l : List (String × α)) (k : String) (f : α → α)
    (h : ∀ v, alistGet l k = some v → f v = v) : alistMap l k f = l := by
  induction l with
  | nil => simp [alistMap]
  | cons p rest ih =>
      obtain ⟨k₀, v⟩ := p
      by_cases h₀ : k₀ = k
      · subst h₀
        have := h v (by simp [alistGet])
        simp [alistMap, this]
      · simp only [alistMap, if_neg h₀]
        have : alistMap rest k f = rest := by
          refine ih (fun v' hv' => h v' ?_)
          simpa [alistGet, h₀] using hv'
        simp [this]

lemma alistGet_append {α : Type} (l l₂ : List (String × α)) (k : String) :
    alistGet (l ++ l₂) k =
      match alistGet l k with
      | some v => some v
      | none => alistGet l₂ k := by
  induction l with
  | nil => simp [alistGet]
  | cons p rest ih =>
      obtain ⟨k₀, v⟩ := p
      by_cases h₀ : k₀ = k
      · subst h₀; simp [alistGet]
      · simp [alistGet, h₀, ih]

lemma alistGet_append_left {α : Type} (l l₂ : List (String × α)) (k : String)
    (h : (alistGet l k).isSome) : alistGet (l ++ l₂) k = alistGet l k := by
  rw [alistGet_append]
  obtain ⟨v, hv⟩ := Option.isSome_iff_exists.mp h
  simp [hv]

lemma alistMap_append_single {α : Type} (l : List (String × α)) (k k' : String)
    (v : α) (f : α → α) (h : k ≠ k') :
    alistMap (l ++ [(k', v)]) k f = alistMap l k f ++ [(k', v)] := by
  induction l with
  | nil => simp [alistMap, Ne.symm h]
  | cons p rest ih =>
      obtain ⟨k₀, w⟩ := p
      by_cases h₀ : k₀ = k
      · subst h₀; simp [alistMap]
      · simp [alistMap, h₀, ih]

lemma alistMap_comm {α : Type} (l : List (String × α)) (k k' : String)
    (f g : α → α) (h : k ≠ k') :
    alistMap (alistMap l k f) k' g = alistMap (alistMap l k' g) k f := by
  induction l with
  | nil => simp [alistMap]
  | cons p rest ih =>
      obtain ⟨k₀, v⟩ := p
      by_cases h₀ : k₀ = k
      · subst h₀
        simp [alistMap, h, Ne.symm h]
      · by_cases h₁ : k₀ = k'
        · subst h₁; simp [alistMap, h₀, h.symm]
        · simp [alistMap, h₀, h₁, ih]

lemma applyMeta_applyMeta (umap umap' : List (String × String))
    (g g' : GenerationData) (e : FavoriteEntry) :
    applyMeta umap g (applyMeta umap' g' e) = applyMeta umap g e := rfl

lemma applyMeta_newEntry (umap : List (String × String)) (files : List String)
    (ext : String) (g : GenerationData) :
    applyMeta umap g (newEntry umap files ext g) = newEntry umap files ext g := rfl

lemma mergeGo_get_untouched (umap : List (String × String)) (files : List String)
    (ext : String) (gs : List GenerationData) :
    ∀ ts k, (∀ g ∈ gs, g.id ≠ k) →
      alistGet (mergeGo umap files ext ts gs).1 k = alistGet ts k := by
  induction gs with
  | nil => intro ts k _; simp [mergeGo]
  | cons g rest ih =>
      intro ts k hk
      have hg : g.id ≠ k := hk g (by simp)
      have hrest : ∀ g' ∈ rest, g'.id ≠ k := fun g' hg' => hk g' (by simp [hg'])
      by_cases hid : g.id = ""
      · simpa [mergeGo, hid] using ih ts k hrest
      · simp only [mergeGo, if_neg hid]
        cases hget : alistGet ts g.id with
        | some e =>
            rw [ih _ k hrest, alistGet_map_ne _ _ _ _ hg]
        | none =>
            simp only []
            rw [ih _ k hrest, alistGet_append]
            cases hk' : alistGet ts k with
            | some v => rfl
            | none => simp [alistGet, hg]

lemma mergeGo_isSome_mono (umap : List (String × String)) (files : List String)
    (ext : String) (gs : List GenerationData) :
    ∀ ts k, (alistGet ts k).isSome →
      (alistGet (mergeGo umap files ext ts gs).1 k).isSome := by
  induction gs with
  | nil => intro ts k h; simpa [mergeGo] using h
  | cons g rest ih =>
      intro ts k h
      by_cases hid : g.id = ""
      · simpa [mergeGo, hid] using ih ts k h
      · simp only [mergeGo, if_neg hid]
        cases hget : alistGet ts g.id with
        | some e =>
            refine ih _ k ?_
            by_cases hgk : g.id = k
            · subst hgk
              rw [alistGet_map_self, hget]; simp
            · rwa [alistGet_map_ne _ _ _ _ hgk]
        | none =>
            simp only []
            refine ih _ k ?_
            rwa [alistGet_append_left _ _ _ h]

lemma mergeGo_absorb (umap : List (String × String)) (files : List String)
    (ext : String) (gs : List GenerationData) :
    ∀ ts id f e₀, id ≠ "" →
      (∀ (g : GenerationData) e, applyMeta umap g (f e) = applyMeta umap g e) →
      alistGet ts id = some e₀ →
      (∃ g ∈ gs, g.id = id) →
      mergeGo umap files ext (alistMap ts id f) gs = mergeGo umap files ext ts gs := by
  induction gs with
  | nil => intro ts id f e₀ _ _ _ hex; simp at hex
  | cons g rest ih =>
      intro ts id f e₀ hid hm hget hex
      by_cases hgid : g.id = ""
      · have hex' : ∃ g' ∈ rest, g'.id = id := by
          obtain ⟨g', hg', hgeq⟩ := hex
          rcases List.mem_cons.mp hg' with heq | hmem
          · exfalso
            apply hid
            rw [← hgeq, heq, hgid]
          · exact ⟨g', hmem, hgeq⟩
        simp only [mergeGo, if_pos hgid]
        exact ih ts id f e₀ hid hm hget hex'
      · by_cases hsame : g.id = id
        · -- first hit of the absorbed key: the metadata refresh overwrites f
          have hmapget : alistGet (alistMap ts id f) id = some (f e₀) := by
            rw [alistGet_map_self, hget]; rfl
          simp only [mergeGo, hsame, if_neg hid, hmapget, hget]
          rw [alistMap_map]
          have : alistMap ts id (fun v => applyMeta umap g (f v)) =
              alistMap ts id (applyMeta umap g) :=
            alistMap_congr _ _ _ _ (fun v _ => hm g v)
          rw [this]
        · -- a different key: the step commutes with the absorbed update
          have hne : id ≠ g.id := fun hh => hsame hh.symm
          have hex' : ∃ g' ∈ rest, g'.id = id := by
            obtain ⟨g', hg', hgeq⟩ := hex
            rcases List.mem_cons.mp hg' with heq | hmem
            · exact absurd (heq ▸ hgeq) (fun hh => hsame hh)
            · exact ⟨g', hmem, hgeq⟩
          have hmapget : alistGet (alistMap ts id f) g.id = alistGet ts g.id :=
            alistGet_map_ne _ _ _ _ hne
          cases hget' : alistGet ts g.id with
          | some e =>
              simp only [mergeGo, if_neg hgid, hmapget, hget']
              rw [alistMap_comm _ _ _ _ _ hne]
              refine ih _ id f e₀ hid hm ?_ hex'
              rwa [alistGet_map_ne _ _ _ _ (Ne.symm hne)]
          | none =>
              simp only [mergeGo, if_neg hgid, hmapget, hget']
              rw [← alistMap_append_single ts id g.id (newEntry umap files ext g) f hne]
              have hget'' : alistGet (ts ++ [(g.id, newEntry umap files ext g)]) id = some e₀ := by
                rw [alistGet_append_left]
                · exact hget
                · simp [hget]
              rw [ih _ id f e₀ hid hm hget'' hex']

lemma mergeGo_idem (umap : List (String × String)) (files files' : List String)
    (ext ext' : String) (gens : List GenerationData) :
    ∀ ts, mergeGo umap files' ext' (mergeGo umap files ext ts gens).1 gens =
      ((mergeGo umap files ext ts gens).1, 0) := by
  induction gens with
  | nil => intro ts; simp [mergeGo]
  | cons g gs ih =>
      intro ts
      by_cases hgid : g.id = ""
      · simp only [mergeGo, if_pos hgid]
        exact ih ts
      · simp only [mergeGo, if_neg hgid]
        cases hget : alistGet ts g.id with
        | some e =>
            -- update branch on the first pass
            have hpres : (alistGet (mergeGo umap files ext
                (alistMap ts g.id (applyMeta umap g)) gs).1 g.id).isSome := by
              apply mergeGo_isSome_mono
              rw [alistGet_map_self, hget]; rfl
            obtain ⟨e', he'⟩ := Option.isSome_iff_exists.mp hpres
            simp only [he']
            by_cases hex : ∃ g' ∈ gs, g'.id = g.id
            · rw [mergeGo_absorb umap files' ext' gs _ _ _ e' hgid
                (fun g'' e'' => applyMeta_applyMeta umap umap g'' g e'') he' hex]
              exact ih (alistMap ts g.id (applyMeta umap g))
            · have huntouched : ∀ g' ∈ gs, g'.id ≠ g.id := by
                intro g' hg' heq
                exact hex ⟨g', hg', heq⟩
              have : alistGet (mergeGo umap files ext
                  (alistMap ts g.id (applyMeta umap g)) gs).1 g.id =
                  some (applyMeta umap g e) := by
                rw [mergeGo_get_untouched umap files ext gs _ _ huntouched,
                  alistGet_map_self, hget]
                rfl
              have hfix : alistMap (mergeGo umap files ext
                  (alistMap ts g.id (applyMeta umap g)) gs).1 g.id (applyMeta umap g) =
                  (mergeGo umap files ext (alistMap ts g.id (applyMeta umap g)) gs).1 := by
                apply alistMap_fix
                intro v hv
                rw [this] at hv
                cases hv
                exact applyMeta_applyMeta umap umap g g e
              rw [hfix]
              exact ih (alistMap ts g.id (applyMeta umap g))
        | none =>
            -- create branch on the first pass; the second pass must update
            have hpres : (alistGet (mergeGo umap files ext
                (ts ++ [(g.id, newEntry umap files ext g)]) gs).1 g.id).isSome := by
              apply mergeGo_isSome_mono
              rw [alistGet_append]
              simp [hget, alistGet]
            obtain ⟨e', he'⟩ := Option.isSome_iff_exists.mp hpres
            simp only [he']
            by_cases hex : ∃ g' ∈ gs, g'.id = g.id
            · rw [mergeGo_absorb umap files' ext' gs _ _ _ e' hgid
                (fun g'' e'' => applyMeta_applyMeta umap umap g'' g e'') he' hex]
              exact ih (ts ++ [(g.id, newEntry umap files ext g)])
            · have huntouched : ∀ g' ∈ gs, g'.id ≠ g.id := by
                intro g' hg' heq
                exact hex ⟨g', hg', heq⟩
              have : alistGet (mergeGo umap files ext
                  (ts ++ [(g.id, newEntry umap files ext g)]) gs).1 g.id =
                  some (newEntry umap files ext g) := by
                rw [mergeGo_get_untouched umap files ext gs _ _ huntouched,
                  alistGet_append]
                simp [hget, alistGet]
              have hfix : alistMap (mergeGo umap files ext
                  (ts ++ [(g.id, newEntry umap files ext g)]) gs).1 g.id
                  (applyMeta umap g) =
                  (mergeGo umap files ext (ts ++ [(g.id, newEntry umap files ext g)]) gs).1 := by
                apply alistMap_fix
                intro v hv
                rw [this] at hv
                cases hv
                exact applyMeta_newEntry umap files ext g
              rw [hfix]
              exact ih (ts ++ [(g.id, newEntry umap files ext g)])

/-- C1.  Reconciliation is idempotent: merging the same remote listing with
the same id-to-label map a second time creates zero new entries and returns a
manifest whose tracks map (every key and every field of every entry,
including `status`) is exactly the manifest produced by the first merge.
The second pass may even see a different output-directory listing. -/
theorem merge_idempotent (m : Manifest) (gens : List GenerationData)
    (umap : List (String × String)) (listing listing' : Option (List String))
    (ext : String) :
    mergeTracks (mergeTracks m gens umap listing ext).1 gens umap listing' ext =
      ((mergeTracks m gens umap listing ext).1, 0) := by
  unfold mergeTracks
  simp only []
  rw [mergeGo_idem]

/-- Fields of a manifest entry that the reconciler's update branch never
touches (everything except the descriptive metadata). -/
def FrameEq (e' e : FavoriteEntry) : Prop :=
  e'.id = e.id ∧ e'.songUrl = e.songUrl ∧ e'.status = e.status ∧
  e'.driveFilename = e.driveFilename ∧ e'.fileSizeMB = e.fileSizeMB ∧
  e'.lastAttempt = e.lastAttempt ∧ e'.error = e.error

lemma frameEq_refl (e : FavoriteEntry) : FrameEq e e :=
  ⟨rfl, rfl, rfl, rfl, rfl, rfl, rfl⟩

lemma frameEq_trans {a b c : FavoriteEntry} (h₁ : FrameEq a b) (h₂ : FrameEq b c) :
    FrameEq a c := by
  obtain ⟨x1, x2, x3, x4, x5, x6, x7⟩ := h₁
  obtain ⟨y1, y2, y3, y4, y5, y6, y7⟩ := h₂
  exact ⟨x1.trans y1, x2.trans y2, x3.trans y3, x4.trans y4, x5.trans y5,
    x6.trans y6, x7.trans y7⟩

lemma frameEq_applyMeta (umap : List (String × String)) (g : GenerationData)
    (e : FavoriteEntry) : FrameEq (applyMeta umap g e) e :=
  ⟨rfl, rfl, rfl, rfl, rfl, rfl, rfl⟩

lemma mergeGo_frame (umap : List (String × String)) (files : List String)
    (ext : String) (gs : List GenerationData) :
    ∀ ts k e, alistGet ts k = some e →
      ∃ e', alistGet (mergeGo umap files ext ts gs).1 k = some e' ∧ FrameEq e' e := by
  induction gs with
  | nil => intro ts k e h; exact ⟨e, by simpa [mergeGo] using h, frameEq_refl e⟩
  | cons g rest ih =>
      intro ts k e h
      by_cases hgid : g.id = ""
      · simp only [mergeGo, if_pos hgid]
        exact ih ts k e h
      · simp only [mergeGo, if_neg hgid]
        cases hget : alistGet ts g.id with
        | some e₁ =>
            by_cases hk : g.id = k
            · subst hk
              have he : e₁ = e := by rw [hget] at h; cases h; rfl
              subst he
              have hnext : alistGet (alistMap ts g.id (applyMeta umap g)) g.id =
                  some (applyMeta umap g e₁) := by
                rw [alistGet_map_self, hget]; rfl
              obtain ⟨e', he', hf⟩ := ih _ g.id (applyMeta umap g e₁) hnext
              exact ⟨e', he', frameEq_trans hf (frameEq_applyMeta umap g e₁)⟩
            · have hnext : alistGet (alistMap ts g.id (applyMeta umap g)) k =
                  some e := by
                rw [alistGet_map_ne _ _ _ _ hk]; exact h
              exact ih _ k e hnext
        | none =>
            simp only []
            have hnext : alistGet (ts ++ [(g.id, newEntry umap files ext g)]) k =
                some e := by
              rw [alistGet_append_left]
              · exact h
              · simp [h]
            obtain ⟨e', he', hf⟩ := ih _ k e hnext
            exact ⟨e', by simpa using he', hf⟩

/-- C2.  For every remote item whose id already has an entry in the manifest,
merge leaves that entry's `status`, `driveFilename` (the local artifact
name), `error` (the last error), and `lastAttempt` (the attempt history)
unchanged: the update branch only overwrites descriptive metadata. -/
theorem merge_frame_existing (m : Manifest) (gens : List GenerationData)
    (umap : List (String × String)) (listing : Option (List String))
    (ext : String) (k : String) (e : FavoriteEntry)
    (h : alistGet m.tracks k = some e) :
    ∃ e', alistGet (mergeTracks m gens umap listing ext).1.tracks k = some e' ∧
      e'.status = e.status ∧ e'.driveFilename = e.driveFilename ∧
      e'.error = e.error ∧ e'.lastAttempt = e.lastAttempt := by
  obtain ⟨e', he', hf⟩ :=
    mergeGo_frame umap (driveFileSet listing ext) ext gens m.tracks k e h
  exact ⟨e', he', hf.2.2.1, hf.2.2.2.1, hf.2.2.2.2.2.2, hf.2.2.2.2.2.1⟩

/-- Closed witness for `merge_frame_existing` at a concrete manifest. -/
def wEntry : FavoriteEntry :=
  { id := "a1", title := "Song", artist := "Alice", authorId := "u1"
    genre := "Pop", prompt := none, lyrics := none, model := none, seed := none
    playCount := none, favoriteCount := none
    songUrl := "https://www.producer.ai/song/a1"
    status := .downloaded, driveFilename := some "a1.wav", fileSizeMB := some 121
    lastAttempt := some 3, error := none, createdAt := some 5 }

/-- Concrete remote item used by the witnesses and counterexamples. -/
def wGen : GenerationData :=
  { id := "a1", title := some "Song v2", lyrics := none, created_at := some 6
    author_id := some "u9", sound := some "Rock", seed := none
    model_display_name := none, play_count := none, favorite_count := none
    conditions := [] }

/-- Concrete manifest used by the witnesses. -/
def wManifest : Manifest :=
  { lastRun := 0, source := "favorites", totalFavorites := none
    tracks := [("a1", wEntry)] }

theorem merge_frame_existing_witness :
    ∃ e', alistGet (mergeTracks wManifest [wGen] [] none ".wav").1.tracks "a1" =
        some e' ∧
      e'.status = wEntry.status ∧ e'.driveFilename = wEntry.driveFilename ∧
      e'.error = wEntry.error ∧ e'.lastAttempt = wEntry.lastAttempt :=
  merge_frame_existing wManifest [wGen] [] none ".wav" "a1" wEntry (by decide)

lemma mergeGo_append_split (umap : List (String × String)) (files : List String)
    (ext : String) (l₁ l₂ : List GenerationData) :
    ∀ ts, (mergeGo umap files ext ts (l₁ ++ l₂)).1 =
      (mergeGo umap files ext (mergeGo umap files ext ts l₁).1 l₂).1 := by
  induction l₁ with
  | nil => intro ts; simp [mergeGo]
  | cons g rest ih =>
      intro ts
      by_cases hgid : g.id = ""
      · simp only [List.cons_append, mergeGo, if_pos hgid]
        exact ih ts
      · simp only [List.cons_append, mergeGo, if_neg hgid]
        cases hget : alistGet ts g.id with
        | some e => exact ih _
        | none => simpa using ih _

/-- The fresh empty manifest value (`tracks = {}`) with a given source mode. -/
def freshManifest (source : String) : Manifest :=
  { lastRun := 0, source := source, totalFavorites := none, tracks := [] }

/-- C4 counterexample: merging an item whose author id has no entry in the
id-to-label map records the label "Unknown Artist", not "Unknown"
(the "Unknown" default belongs to the genre field). -/
theorem merge_default_label_counterexample :
    (alistGet (mergeTracks (freshManifest "favorites") [wGen] [] none
        ".wav").1.tracks "a1").map (fun e => e.artist) = some "Unknown Artist" ∧
      ¬ ((alistGet (mergeTracks (freshManifest "favorites") [wGen] [] none
        ".wav").1.tracks "a1").map (fun e => e.artist) = some "Unknown") := by
  constructor
  · rfl
  · decide

/-- C4 (amended).  For a remote item whose author id is absent from the
provided id-to-label lookup, merge records the label "Unknown Artist" (the
source literal), provided no later listing item reuses the same id. -/
theorem merge_default_label (m : Manifest) (umap : List (String × String))
    (listing : Option (List String)) (ext : String)
    (pre post : List GenerationData) (g : GenerationData)
    (hid : g.id ≠ "")
    (hauthor : alistGet umap (g.author_id.getD "") = none)
    (hpost : ∀ g' ∈ post, g'.id ≠ g.id) :
    ∃ e', alistGet (mergeTracks m (pre ++ g :: post) umap listing ext).1.tracks
        g.id = some e' ∧ e'.artist = "Unknown Artist" := by
  unfold mergeTracks
  simp only []
  set files := driveFileSet listing ext with hfiles
  rw [mergeGo_append_split]
  set ts₁ := (mergeGo umap files ext m.tracks pre).1 with hts₁
  have hstep : ∃ e₁, alistGet (mergeGo umap files ext ts₁ [g]).1 g.id = some e₁ ∧
      e₁.artist = "Unknown Artist" := by
    simp only [mergeGo, if_neg hid]
    cases hget : alistGet ts₁ g.id with
    | some e =>
        refine ⟨applyMeta umap g e, ?_, ?_⟩
        · simp only [mergeGo]
          rw [alistGet_map_self, hget]; rfl
        · simp [applyMeta, hauthor]
    | none =>
        refine ⟨newEntry umap files ext g, ?_, ?_⟩
        · simp only [mergeGo]
          rw [alistGet_append]
          simp [hget, alistGet]
        · simp [newEntry, hauthor]
  obtain ⟨e₁, he₁, hartist⟩ := hstep
  have hsplit : (mergeGo umap files ext ts₁ (g :: post)).1 =
      (mergeGo umap files ext (mergeGo umap files ext ts₁ [g]).1 post).1 := by
    have := mergeGo_append_split umap files ext [g] post ts₁
    simpa using this
  rw [hsplit, mergeGo_get_untouched umap files ext post _ _ hpost, he₁]
  exact ⟨e₁, rfl, hartist⟩

theorem merge_default_label_witness :
    (wGen.id ≠ "") ∧
    (∃ e', alistGet (mergeTracks wManifest ([] ++ wGen :: []) [] none ".wav").1.tracks
        wGen.id = some e' ∧ e'.artist = "Unknown Artist") :=
  ⟨by decide,
    merge_default_label wManifest [] none ".wav" [] [] wGen (by decide) (by decide)
      (by intro g' hg'; simp at hg')⟩

/-- The diagnostic written by the verifier to a reset entry
(core/manifest.ts line 61). -/
def verifyMissingMsg : String :=
  "File missing from output directory (detected by --verify)"

/-- The existence check of the verifier: either the id-based filename or the
sanitized label-derived filename is present in the output directory. -/
def verifyFound (drive : List String) (ext : String) (e : FavoriteEntry) : Bool :=
  drive.contains (e.id ++ ext) ||
    drive.contains (sanitizeFilename (e.artist ++ " - " ++ e.title ++ ext))

/-- The reset applied to an acquired entry whose artifact is missing. -/
def resetEntry (e : FavoriteEntry) : FavoriteEntry :=
  { e with
    status := .pending
    driveFilename := none
    error := some verifyMissingMsg }

/-- Per-entry effect of the verifier's loop. -/
def verifyEntryUpdate (drive : List String) (ext : String)
    (e : FavoriteEntry) : FavoriteEntry :=
  if e.status = DownloadStatus.downloaded ∧ verifyFound drive ext e = false then
    resetEntry e
  else e

/-- `verifyDownloadedFiles` from core/manifest.ts.  `listing` is the output
directory contents (`none` when `readdir` throws, in which case the function
logs and returns zero counts without touching the manifest).  Returns the
updated manifest together with the `missing` and `verified` counts. -/
def verifyDownloadedFiles (m : Manifest) (listing : Option (List String))
    (ext : String) : Manifest × Nat × Nat :=
  let downloaded := (m.tracks.map Prod.snd).filter
    (fun t => t.status == DownloadStatus.downloaded)
  if downloaded.length = 0 then (m, 0, 0)
  else
    match listing with
    | none => (m, 0, 0)
    | some files =>
        let drive := files.filter (fun f => f.endsWith ext)
        let tracks' := m.tracks.map (fun p => (p.1, verifyEntryUpdate drive ext p.2))
        let missing := (downloaded.filter
          (fun t => !(verifyFound drive ext t))).length
        ({ m with tracks := tracks' }, missing, downloaded.length - missing)

lemma alistGet_map_values {α : Type} (l : List (String × α)) (f : α → α)
    (k : String) :
    alistGet (l.map (fun p => (p.1, f p.2))) k = (alistGet l k).map f := by
  induction l with
  | nil => simp [alistGet]
  | cons p rest ih =>
      obtain ⟨k₀, v⟩ := p
      by_cases h₀ : k₀ = k
      · subst h₀; simp [alistGet]
      · simp [alistGet, h₀, ih]

lemma length_filter_split {α : Type} (l : List α) (p : α → Bool) :
    (l.filter p).length + (l.filter (fun x => !(p x))).length = l.length := by
  induction l with
  | nil => simp
  | cons x rest ih =>
      by_cases h : p x = true
      · rw [List.filter_cons_of_pos (by simp [h]),
          List.filter_cons_of_neg (by simp [h])]
        simp only [List.length_cons]
        omega
      · have h' : p x = false := by simpa using h
        rw [List.filter_cons_of_neg (by simp [h']),
          List.filter_cons_of_pos (by simp [h'])]
        simp only [List.length_cons]
        omega

lemma alistGet_mem_values {α : Type} (l : List (String × α)) (k : String) (e : α)
    (h : alistGet l k = some e) : e ∈ l.map Prod.snd := by
  induction l with
  | nil => simp [alistGet] at h
  | cons p rest ih =>
      obtain ⟨k₀, v⟩ := p
      by_cases h₀ : k₀ = k
      · subst h₀
        simp [alistGet] at h
        simp [h]
      · simp only [alistGet, if_neg h₀] at h
        simp [ih h]

lemma verify_tracks_eq (m : Manifest) (files : List String) (ext : String) :
    (verifyDownloadedFiles m (some files) ext).1.tracks =
      m.tracks.map (fun p =>
        (p.1, verifyEntryUpdate (files.filter (fun f => f.endsWith ext)) ext p.2)) := by
  unfold verifyDownloadedFiles
  set dl := (m.tracks.map Prod.snd).filter
    (fun t => t.status == DownloadStatus.downloaded) with hdl
  by_cases hzero : dl.length = 0
  · rw [if_pos hzero]
    have hnone : ∀ t ∈ m.tracks.map Prod.snd,
        t.status ≠ DownloadStatus.downloaded := by
      intro t ht hcon
      have hmem : t ∈ dl := by
        rw [hdl]
        exact List.mem_filter.mpr ⟨ht, by simp [hcon]⟩
      rw [List.length_eq_zero] at hzero
      simp [hzero] at hmem
    have hfix : ∀ p ∈ m.tracks,
        (p.1, verifyEntryUpdate (files.filter (fun f => f.endsWith ext)) ext p.2) = p := by
      intro p hp
      have hne := hnone p.2 (List.mem_map.mpr ⟨p, hp, rfl⟩)
      simp [verifyEntryUpdate, hne]
    have h1 : m.tracks.map (fun p =>
        (p.1, verifyEntryUpdate (files.filter (fun f => f.endsWith ext)) ext p.2)) =
        m.tracks.map id :=
      List.map_congr_left (fun p hp => hfix p hp)
    rw [h1, List.map_id]
  · rw [if_neg hzero]

lemma verify_missing_eq (m : Manifest) (files : List String) (ext : String) :
    (verifyDownloadedFiles m (some files) ext).2.1 =
      (((m.tracks.map Prod.snd).filter
        (fun t => t.status == DownloadStatus.downloaded)).filter
        (fun t => !(verifyFound (files.filter (fun f => f.endsWith ext)) ext t))).length := by
  unfold verifyDownloadedFiles
  set dl := (m.tracks.map Prod.snd).filter
    (fun t => t.status == DownloadStatus.downloaded) with hdl
  by_cases hzero : dl.length = 0
  · rw [if_pos hzero]
    rw [List.length_eq_zero] at hzero
    simp [hzero]
  · rw [if_neg hzero]

lemma verify_verified_eq (m : Manifest) (files : List String) (ext : String) :
    (verifyDownloadedFiles m (some files) ext).2.2 =
      (((m.tracks.map Prod.snd).filter
        (fun t => t.status == DownloadStatus.downloaded)).filter
        (fun t => verifyFound (files.filter (fun f => f.endsWith ext)) ext t)).length := by
  unfold verifyDownloadedFiles
  set dl := (m.tracks.map Prod.snd).filter
    (fun t => t.status == DownloadStatus.downloaded) with hdl
  by_cases hzero : dl.length = 0
  · rw [if_pos hzero]
    rw [List.length_eq_zero] at hzero
    simp [hzero]
  · rw [if_neg hzero]
    simp only []
    have hsplit := length_filter_split dl
      (fun t => verifyFound (files.filter (fun f => f.endsWith ext)) ext t)
    simp only [] at hsplit
    omega

/-- C6.  The verifier resets exactly the acquired items whose artifact is
missing under both candidate names (to `pending`, with `driveFilename`
cleared and a non-empty diagnostic), leaves every other item unchanged, and
returns `missing` = number of reset items and `verified` = number of
acquired items whose artifact was found. -/
theorem verify_resets_missing (m : Manifest) (files : List String) (ext : String) :
    (∀ k e, alistGet m.tracks k = some e →
      ((e.status = DownloadStatus.downloaded ∧
          verifyFound (files.filter (fun f => f.endsWith ext)) ext e = false →
        alistGet (verifyDownloadedFiles m (some files) ext).1.tracks k =
            some (resetEntry e) ∧
          (resetEntry e).status = DownloadStatus.pending ∧
          (resetEntry e).driveFilename = none ∧
          (resetEntry e).error = some verifyMissingMsg ∧ verifyMissingMsg ≠ "") ∧
       (e.status ≠ DownloadStatus.downloaded ∨
          verifyFound (files.filter (fun f => f.endsWith ext)) ext e = true →
        alistGet (verifyDownloadedFiles m (some files) ext).1.tracks k = some e))) ∧
    (verifyDownloadedFiles m (some files) ext).2.1 =
      (((m.tracks.map Prod.snd).filter
        (fun t => t.status == DownloadStatus.downloaded)).filter
        (fun t => !(verifyFound (files.filter (fun f => f.endsWith ext)) ext t))).length ∧
    (verifyDownloadedFiles m (some files) ext).2.2 =
      (((m.tracks.map Prod.snd).filter
        (fun t => t.status == DownloadStatus.downloaded)).filter
        (fun t => verifyFound (files.filter (fun f => f.endsWith ext)) ext t)).length := by
  refine ⟨?_, verify_missing_eq m files ext, verify_verified_eq m files ext⟩
  intro k e he
  have hget : alistGet (verifyDownloadedFiles m (some files) ext).1.tracks k =
      some (verifyEntryUpdate (files.filter (fun f => f.endsWith ext)) ext e) := by
    rw [verify_tracks_eq, alistGet_map_values, he]
    rfl
  constructor
  · intro hc
    rw [hget]
    refine ⟨?_, by rfl, by rfl, by rfl, by decide⟩
    simp [verifyEntryUpdate, hc.1, hc.2]
  · intro hc
    rw [hget]
    rcases hc with hc | hc
    · simp [verifyEntryUpdate, hc]
    · simp [verifyEntryUpdate, hc]

theorem verify_resets_missing_witness :
    alistGet (verifyDownloadedFiles wManifest (some []) ".wav").1.tracks "a1" =
      some (resetEntry wEntry) :=
  (((verify_resets_missing wManifest [] ".wav").1 "a1" wEntry (by decide)).1
    (by decide)).1

/-- The value produced by `JSON.parse` on the stored manifest file: either a
value of the manifest shape, or some other JSON value (JSON.parse succeeds on
any valid JSON, e.g. `42` or `null`, and `loadManifest` performs no shape
validation).  `description` names the non-manifest value. -/
inductive ParsedValue where
  | manifestVal (m : Manifest)
  | otherVal (description : String)
deriving DecidableEq, Repr

/-- The stored content classes relevant to `loadManifest`: the file may be
missing (`readFile` throws ENOENT), unreadable (`readFile` throws an I/O
error), not valid JSON (`JSON.parse` throws), or valid JSON that parses to
some value. -/
inductive StoredContent where
  | missing
  | unreadable
  | badJson
  | parsed (v : ParsedValue)
deriving DecidableEq, Repr

/-- `loadManifest` from core/manifest.ts (and the identical function in
sync-favorites.ts).  The `catch` block fires exactly when `readFile` or
`JSON.parse` throws, returning the fresh empty manifest with the given
source; a successfully parsed value is returned as-is, without validating
that it has the manifest shape. -/
def loadManifest (stored : StoredContent) (source : String) : ParsedValue :=
  match stored with
  | .missing => .manifestVal (freshManifest source)
  | .unreadable => .manifestVal (freshManifest source)
  | .badJson => .manifestVal (freshManifest source)
  | .parsed v => v

/-- C9 counterexample: on stored content that is valid JSON but not a
manifest (e.g. the file contains just `42`), load returns the parsed
non-manifest value unvalidated — neither a manifest parsed from storage nor
a fresh empty manifest. -/
theorem load_nonmanifest_counterexample :
    loadManifest (.parsed (.otherVal "42")) "favorites" = .otherVal "42" ∧
      ∀ mm : Manifest,
        loadManifest (.parsed (.otherVal "42")) "favorites" ≠ .manifestVal mm := by
  refine ⟨rfl, ?_⟩
  intro mm h
  exact ParsedValue.noConfusion h

/-- C9 (amended).  Load substitutes the fresh empty manifest (empty tracks
map, the given default source mode) exactly when the file is missing,
unreadable, or not parseable as JSON; when JSON parsing succeeds it returns
the parsed value as-is without shape validation (so non-manifest JSON data
is passed through rather than replaced); load itself never throws. -/
theorem load_recovers_on_read_or_parse_failure (source : String) :
    loadManifest .missing source = .manifestVal (freshManifest source) ∧
    loadManifest .unreadable source = .manifestVal (freshManifest source) ∧
    loadManifest .badJson source = .manifestVal (freshManifest source) ∧
    (freshManifest source).tracks = [] ∧
    (freshManifest source).source = source ∧
    ∀ v : ParsedValue, loadManifest (.parsed v) source = v :=
  ⟨rfl, rfl, rfl, rfl, rfl, fun _ => rfl⟩

/-- One paged API response as observed by the fetch loops: `fail` covers a
non-2xx status and a thrown fetch (`ok: false`); `items` carries the parsed
array (a non-array body coerces to the empty list in the source). -/
inductive PageResult where
  | fail (status : Nat)
  | items (l : List GenerationData)
deriving DecidableEq, Repr

/-- The seen-set deduplication inside the fetch loops: an item is appended
when it has a non-empty id not seen before in this run. -/
def dedupeInto (seen : List String) (acc : List GenerationData) :
    List GenerationData → List String × List GenerationData
  | [] => (seen, acc)
  | g :: rest =>
      if g.id ≠ "" ∧ ¬ seen.contains g.id then
        dedupeInto (g.id :: seen) (acc ++ [g]) rest
      else dedupeInto seen acc rest

/-- Deduplication of a whole listing starting from an empty seen-set. -/
def dedupeList (gens : List GenerationData) : List GenerationData :=
  (dedupeInto [] [] gens).2

/-- Result of a fetch loop: the collected items, how many pages were
requested, and whether a terminal page was reached within the supplied
responses (`false` means the loop would have kept requesting pages). -/
structure FetchResult where
  collected : List GenerationData
  pagesRequested : Nat
  terminated : Bool
deriving DecidableEq, Repr

/-- The shared pagination loop of `fetchAllFavorites` and `fetchAllPublished`
(sync-favorites.ts lines 447-583, part_001 lines 584-715): request pages in
order; stop on an error response (keeping what was collected), on an empty
page, or on a page shorter than the page size; otherwise deduplicate and
continue.  `pages` is the sequence of responses the remote returns. -/
def fetchGo (pageSize : Nat) :
    List String → List GenerationData → List PageResult → FetchResult
  | _, acc, [] => { collected := acc, pagesRequested := 0, terminated := false }
  | _, acc, .fail _ :: _ =>
      { collected := acc, pagesRequested := 1, terminated := true }
  | seen, acc, .items l :: rest =>
      if l.length = 0 then
        { collected := acc, pagesRequested := 1, terminated := true }
      else
        let sa := dedupeInto seen acc l
        if l.length < pageSize then
          { collected := sa.2, pagesRequested := 1, terminated := true }
        else
          let r := fetchGo pageSize sa.1 sa.2 rest
          { collected := r.collected, pagesRequested := r.pagesRequested + 1,
            terminated := r.terminated }

/-- `fetchAllFavorites`: page-number addressed enumeration. -/
def fetchAllFavorites (pageSize : Nat) (pages : List PageResult) : FetchResult :=
  fetchGo pageSize [] [] pages

/-- `fetchAllPublished`: offset addressed enumeration; after normalising the
`{ generations: [...] }` envelope its loop body is identical to
`fetchAllFavorites`, so it is the same function of the response sequence. -/
def fetchAllPublished (pageSize : Nat) (pages : List PageResult) : FetchResult :=
  fetchGo pageSize [] [] pages

/-- A terminal page per the spec: an error, an empty page, or a page shorter
than the requested page size. -/
def isTerminalPage (pageSize : Nat) : PageResult → Bool
  | .fail _ => true
  | .items l => l.length == 0 || decide (l.length < pageSize)

/-- Index of the first terminal page of a response sequence, if any. -/
def firstTerminal (pageSize : Nat) : List PageResult → Option Nat
  | [] => none
  | p :: rest =>
      if isTerminalPage pageSize p then some 0
      else (firstTerminal pageSize rest).map (fun i => i + 1)

/-- The items carried by a page (an error page carries none). -/
def pageItems : PageResult → List GenerationData
  | .fail _ => []
  | .items l => l

lemma dedupeInto_append (l₁ l₂ : List GenerationData) :
    ∀ seen acc, dedupeInto seen acc (l₁ ++ l₂) =
      dedupeInto (dedupeInto seen acc l₁).1 (dedupeInto seen acc l₁).2 l₂ := by
  induction l₁ with
  | nil => intro seen acc; simp [dedupeInto]
  | cons g rest ih =>
      intro seen acc
      by_cases h : g.id ≠ "" ∧ ¬ seen.contains g.id
      · simp only [List.cons_append, dedupeInto, if_pos h]
        exact ih _ _
      · simp only [List.cons_append, dedupeInto, if_neg h]
        exact ih _ _

lemma fetchGo_spec (pageSize : Nat) (pages : List PageResult) :
    ∀ seen acc,
      (fetchGo pageSize seen acc pages).pagesRequested =
        (match firstTerminal pageSize pages with
          | some i => i + 1
          | none => pages.length) ∧
      (fetchGo pageSize seen acc pages).terminated =
        (firstTerminal pageSize pages).isSome ∧
      (fetchGo pageSize seen acc pages).collected =
        (dedupeInto seen acc
          ((pages.take (fetchGo pageSize seen acc pages).pagesRequested).map
            pageItems).flatten).2 := by
  induction pages with
  | nil =>
      intro seen acc
      refine ⟨rfl, rfl, ?_⟩
      simp [fetchGo, dedupeInto]
  | cons p rest ih =>
      intro seen acc
      cases p with
      | fail s =>
          refine ⟨rfl, rfl, ?_⟩
          simp [fetchGo, firstTerminal, isTerminalPage, pageItems, dedupeInto]
      | items l =>
          by_cases hz : l.length = 0
          · have hterm : isTerminalPage pageSize (.items l) = true := by
              simp [isTerminalPage, hz]
            refine ⟨?_, ?_, ?_⟩
            · simp [fetchGo, hz, firstTerminal, hterm]
            · simp [fetchGo, hz, firstTerminal, hterm]
            · have hl : l = [] := List.length_eq_zero.mp hz
              simp [fetchGo, hz, firstTerminal, hterm, pageItems, hl, dedupeInto]
          · by_cases hshort : l.length < pageSize
            · have hterm : isTerminalPage pageSize (.items l) = true := by
                simp [isTerminalPage, hshort]
              refine ⟨?_, ?_, ?_⟩
              · simp [fetchGo, hz, hshort, firstTerminal, hterm]
              · simp [fetchGo, hz, hshort, firstTerminal, hterm]
              · simp only [fetchGo, if_neg hz, if_pos hshort, firstTerminal, hterm,
                  if_pos rfl]
                simp [pageItems, dedupeInto_append]
            · have hterm : isTerminalPage pageSize (.items l) = false := by
                simp [isTerminalPage, hz, hshort]
              obtain ⟨ih1, ih2, ih3⟩ := ih (dedupeInto seen acc l).1 (dedupeInto seen acc l).2
              refine ⟨?_, ?_, ?_⟩
              · simp only [fetchGo, if_neg hz, if_neg hshort, firstTerminal, hterm,
                  Bool.false_eq_true, if_false]
                rw [ih1]
                cases hft : firstTerminal pageSize rest with
                | some i => simp [hft]
                | none => simp [hft]
              · simp only [fetchGo, if_neg hz, if_neg hshort, firstTerminal, hterm,
                  Bool.false_eq_true, if_false]
                rw [ih2]
                cases hft : firstTerminal pageSize rest with
                | some i => simp [hft]
                | none => simp [hft]
              · simp only [fetchGo, if_neg hz, if_neg hshort]
                rw [ih3]
                simp [pageItems, dedupeInto_append]

/-- C7.  The fetch loops request pages in order and stop exactly at the first
terminal page: an error response, an empty page, or a page shorter than the
requested page size (if no terminal page occurs among the supplied responses
the loop consumes them all and is still running).  The collected output is
the id-deduplication of the items of the requested pages; since an error
page carries no items, an error terminal returns exactly the items collected
from the earlier pages — partial results, not a failure. -/
theorem fetch_stops_at_first_terminal (pageSize : Nat) (pages : List PageResult) :
    (fetchAllFavorites pageSize pages).pagesRequested =
      (match firstTerminal pageSize pages with
        | some i => i + 1
        | none => pages.length) ∧
    (fetchAllFavorites pageSize pages).terminated =
      (firstTerminal pageSize pages).isSome ∧
    (fetchAllFavorites pageSize pages).collected =
      dedupeList
        ((pages.take (fetchAllFavorites pageSize pages).pagesRequested).map
          pageItems).flatten ∧
    (∀ i s, firstTerminal pageSize pages = some i →
      pages[i]? = some (.fail s) →
      (fetchAllFavorites pageSize pages).collected =
        dedupeList ((pages.take i).map pageItems).flatten) ∧
    fetchAllPublished pageSize pages = fetchAllFavorites pageSize pages := by
  obtain ⟨h1, h2, h3⟩ := fetchGo_spec pageSize pages [] []
  refine ⟨h1, h2, h3, ?_, rfl⟩
  intro i s hfirst hget
  show (fetchGo pageSize [] [] pages).collected = _
  rw [h3, h1, hfirst]
  have htake : pages.take (i + 1) = pages.take i ++ [PageResult.fail s] := by
    have := List.take_succ (l := pages) (n := i)
    rw [this, hget]
    rfl
  rw [htake]
  simp [pageItems, dedupeList]

theorem fetch_stops_at_first_terminal_witness :
    (fetchAllFavorites 2 [PageResult.items [wGen, wGen], PageResult.fail 500]).collected =
      dedupeList ((([PageResult.items [wGen, wGen],
        PageResult.fail 500].take 1).map pageItems)).flatten :=
  (fetch_stops_at_first_terminal 2
    [PageResult.items [wGen, wGen], PageResult.fail 500]).2.2.2.1 1 500 rfl rfl

/-- Outcome of one per-item download attempt, as observed by the loop body:
`staged bytes` means a strategy reported success and the staged/destination
file exists with that size; `nofile` means both the direct (blob) and the
interactive (UI) strategies failed or no file appeared; `thrown msg` means an
exception escaped the per-item `try` block. -/
inductive Outcome where
  | staged (bytes : Nat)
  | nofile
  | thrown (msg : String)
deriving DecidableEq, Repr

/-- The `fileStats.size > 10000` minimum plausible artifact size. -/
def DOWNLOAD_MIN_BYTES : Nat := 10000

/-- `MAX_CONSECUTIVE_FAILURES` in the legacy loop (sync-favorites.ts:938). -/
def LEGACY_MAX_FAILURES : Nat := 20

/-- `MAX_CONSECUTIVE_FAILURES` in the modular loop (part_001:372). -/
def MODULAR_MAX_FAILURES : Nat := 5

/-- `Math.round((bytes / 1024 / 1024) * 10)`: the recorded `fileSizeMB`
in tenths of a megabyte (the source stores this value divided by 10). -/
def roundTenthsMB (bytes : Nat) : Nat := (20 * bytes + 1048576) / 2097152

/-- Whether the loop body counts this outcome as a failure (everything except
a staged file above the minimum size). -/
def outcomeFails (out : Outcome) : Bool :=
  match out with
  | .staged bytes => decide (bytes ≤ DOWNLOAD_MIN_BYTES)
  | .nofile => true
  | .thrown _ => true

/-- Per-item manifest entry update of the legacy loop
(`downloadPendingFavorites`, sync-favorites.ts:945-1024): `lastAttempt` is
stamped first; a success records status/size/filename and clears the error; a
failure records status `failed` and a diagnostic. `i` is the loop step,
standing in for the wall-clock timestamp. -/
def legacyItemUpdate (i : Nat) (out : Outcome) (e : FavoriteEntry) : FavoriteEntry :=
  let e₁ := { e with lastAttempt := some i }
  match out with
  | .staged bytes =>
      if DOWNLOAD_MIN_BYTES < bytes then
        { e₁ with
          status := .downloaded
          fileSizeMB := some (roundTenthsMB bytes)
          driveFilename := some (e₁.id ++ ".wav")
          error := none }
      else
        { e₁ with
          status := .failed
          error := some ("File too small (" ++ toString bytes ++ " bytes)") }
  | .nofile =>
      { e₁ with
        status := .failed
        error := some "Both blob and UI download failed" }
  | .thrown msg =>
      { e₁ with
        status := .failed
        error := some msg }

/-- Per-item manifest entry update of the modular loop
(`downloadPendingTracks`, part_001:381-438): identical to the legacy update
on failures, but a staged success records only `fileSizeMB` (status,
filename and error are deferred to batch promotion). -/
def modularItemUpdate (i : Nat) (out : Outcome) (e : FavoriteEntry) : FavoriteEntry :=
  let e₁ := { e with lastAttempt := some i }
  match out with
  | .staged bytes =>
      if DOWNLOAD_MIN_BYTES < bytes then
        { e₁ with fileSizeMB := some (roundTenthsMB bytes) }
      else
        { e₁ with
          status := .failed
          error := some ("File too small (" ++ toString bytes ++ " bytes)") }
  | .nofile =>
      { e₁ with
        status := .failed
        error := some "Both blob and UI download failed" }
  | .thrown msg =>
      { e₁ with
        status := .failed
        error := some msg }

/-- The per-item effect of batch promotion in the modular loop
(part_001:447-505): a successful copy marks the track downloaded with the
id-based filename and clears the error; a failed copy marks it failed with
the distinct "Copy to output failed" diagnostic (staged bytes kept). -/
def promoteItemUpdate (ok : Bool) (id : String) (e : FavoriteEntry) : FavoriteEntry :=
  if ok then
    { e with
      status := .downloaded
      driveFilename := some (id ++ ".wav")
      error := none }
  else
    { e with
      status := .failed
      error := some "Copy to output failed" }

/-- Promote a staged batch in order; `copyOk` tells whether the copy to the
output location succeeds for a given track id.  Returns the updated tracks
and the updated downloaded counter. -/
def promoteBatch (copyOk : String → Bool) :
    List (String × FavoriteEntry) → List String → Nat →
    List (String × FavoriteEntry) × Nat
  | tracks, [], dcount => (tracks, dcount)
  | tracks, id :: rest, dcount =>
      promoteBatch copyOk (alistMap tracks id (promoteItemUpdate (copyOk id) id))
        rest (if copyOk id then dcount + 1 else dcount)

/-- The `createdAt` sort key (`new Date(t.createdAt).getTime()`, 0 when
absent). -/
def createdKey (e : FavoriteEntry) : Nat := e.createdAt.getD 0

/-- Stable insertion (newest `createdAt` first) used to model the stable
comparator sort of the pending queue. -/
def insertByNewest (x : FavoriteEntry) : List FavoriteEntry → List FavoriteEntry
  | [] => [x]
  | y :: rest =>
      if createdKey x < createdKey y then y :: insertByNewest x rest
      else x :: y :: rest

/-- Stable sort by descending `createdAt`. -/
def sortByNewest : List FavoriteEntry → List FavoriteEntry
  | [] => []
  | x :: rest => insertByNewest x (sortByNewest rest)

/-- The download queue (both loops): manifest values with status pending or
failed, sorted by the stable comparator "pending before failed, then newest
first".  A stable sort under that comparator equals sorting each status group
stably by descending `createdAt` and concatenating pending before failed.
The queue is represented by the track ids, in processing order. -/
def pendingQueue (ts : List (String × FavoriteEntry)) : List String :=
  let vals := ts.map Prod.snd
  let pend := vals.filter (fun e => e.status == DownloadStatus.pending)
  let fail := vals.filter (fun e => e.status == DownloadStatus.failed)
  (sortByNewest pend ++ sortByNewest fail).map (fun e => e.id)

/-- Result of running an acquisition loop: the final tracks map, the
snapshots written by each `saveManifest` call in order, the number of tracks
counted as downloaded this run, how many queue items were processed, and
whether the circuit breaker stopped the run. -/
structure RunResult where
  tracks : List (String × FavoriteEntry)
  saves : List (List (String × FavoriteEntry))
  downloadedCount : Nat
  processed : Nat
  stoppedEarly : Bool
deriving DecidableEq, Repr

/-- The legacy acquisition loop (`downloadPendingFavorites`,
sync-favorites.ts:940-1031) over the remaining queue: `i` is the global item
index (also the modelled timestamp), `consec` the consecutive-failure
counter.  Every iteration updates the entry, persists the manifest, and
breaks when the counter reaches the threshold.  The entry update goes
through `alistMap`, a no-op on an absent key — unreachable from the real
queue, whose ids come from the tracks map itself. -/
def legacyGo (attempt : Nat → Outcome) (maxFail : Nat) :
    List String → Nat → Nat → List (String × FavoriteEntry) →
    List (List (String × FavoriteEntry)) → Nat → RunResult
  | [], i, _, tracks, saves, dcount =>
      { tracks := tracks, saves := saves, downloadedCount := dcount,
        processed := i, stoppedEarly := false }
  | id :: rest, i, consec, tracks, saves, dcount =>
      let out := attempt i
      let tracks' := alistMap tracks id (legacyItemUpdate i out)
      let consec' := if outcomeFails out then consec + 1 else 0
      let dcount' := if outcomeFails out then dcount else dcount + 1
      let saves' := saves ++ [tracks']
      if maxFail ≤ consec' then
        { tracks := tracks', saves := saves', downloadedCount := dcount',
          processed := i + 1, stoppedEarly := true }
      else legacyGo attempt maxFail rest (i + 1) consec' tracks' saves' dcount'

/-- `downloadPendingFavorites`: run the legacy loop over the pending queue
with the threshold of 20 consecutive failures. -/
def downloadPendingFavorites (attempt : Nat → Outcome) (m : Manifest) : RunResult :=
  legacyGo attempt LEGACY_MAX_FAILURES (pendingQueue m.tracks) 0 0 m.tracks [] 0

/-- The final-flush block of the modular loop (part_001:487-506): promote any
still-staged batch and persist once more. -/
def finishRun (copyOk : String → Bool) (tracks : List (String × FavoriteEntry))
    (saves : List (List (String × FavoriteEntry))) (dcount : Nat)
    (batch : List String) (processed : Nat) (stoppedEarly : Bool) : RunResult :=
  if batch.isEmpty then
    { tracks := tracks, saves := saves, downloadedCount := dcount,
      processed := processed, stoppedEarly := stoppedEarly }
  else
    let pb := promoteBatch copyOk tracks batch dcount
    { tracks := pb.1, saves := saves ++ [pb.1], downloadedCount := pb.2,
      processed := processed, stoppedEarly := stoppedEarly }

/-- Whether the outcome is an exception that lands in the per-item `catch`
block (which skips the batch-size check for that iteration). -/
def outcomeThrown : Outcome → Bool
  | .thrown _ => true
  | _ => false

/-- The modular acquisition loop (`downloadPendingTracks`,
part_001:376-506): like the legacy loop, but a staged success only records
its size and joins the current batch; the batch is promoted to the output
location every `batchSize` staged successes (with another persist), and once
more after the loop.  On a thrown exception the batch-size check is skipped
(the `catch` block continues to the next item). -/
def modularGo (attempt : Nat → Outcome) (copyOk : String → Bool)
    (batchSize maxFail : Nat) :
    List String → Nat → Nat → List (String × FavoriteEntry) →
    List (List (String × FavoriteEntry)) → Nat → List String → RunResult
  | [], i, _, tracks, saves, dcount, batch =>
      finishRun copyOk tracks saves dcount batch i false
  | id :: rest, i, consec, tracks, saves, dcount, batch =>
      let out := attempt i
      let tracks' := alistMap tracks id (modularItemUpdate i out)
      let consec' := if outcomeFails out then consec + 1 else 0
      let batch' := if outcomeFails out then batch else batch ++ [id]
      let saves' := saves ++ [tracks']
      if maxFail ≤ consec' then
        finishRun copyOk tracks' saves' dcount batch' (i + 1) true
      else if outcomeThrown out then
        modularGo attempt copyOk batchSize maxFail rest (i + 1) consec'
          tracks' saves' dcount batch'
      else if batchSize ≤ batch'.length then
        let pb := promoteBatch copyOk tracks' batch' dcount
        modularGo attempt copyOk batchSize maxFail rest (i + 1) consec'
          pb.1 (saves' ++ [pb.1]) pb.2 []
      else
        modularGo attempt copyOk batchSize maxFail rest (i + 1) consec'
          tracks' saves' dcount batch'

/-- `downloadPendingTracks`: run the modular loop over the pending queue with
the threshold of 5 consecutive failures. -/
def downloadPendingTracks (attempt : Nat → Outcome) (copyOk : String → Bool)
    (batchSize : Nat) (m : Manifest) : RunResult :=
  modularGo attempt copyOk batchSize MODULAR_MAX_FAILURES (pendingQueue m.tracks)
    0 0 m.tracks [] 0 []

/-- The declarative consecutive-failure counter of the spec: the length of
the failure run ending just before step `k`; any success resets it to 0. -/
def consecFails (fail : Nat → Bool) : Nat → Nat
  | 0 => 0
  | k + 1 => if fail k then consecFails fail k + 1 else 0

/-- A one-track manifest with a pending entry, used by loop counterexamples
and witnesses. -/
def pendEntry : FavoriteEntry :=
  { wEntry with
    status := .pending
    driveFilename := none
    fileSizeMB := none
    lastAttempt := none }

/-- Concrete manifest holding only `pendEntry`. -/
def pendManifest : Manifest :=
  { lastRun := 0, source := "favorites", totalFavorites := none
    tracks := [("a1", pendEntry)] }

/-- C3 counterexample: in the modular loop (`downloadPendingTracks`), the
manifest persisted after processing item 1 does not reflect that item's
successful outcome — the staged success leaves `status = pending` until its
batch is promoted (here `batchSize = 2`, so promotion happens only at the
final flush). -/
theorem download_persist_counterexample :
    outcomeFails (Outcome.staged 20000000) = false ∧
    ((downloadPendingTracks (fun _ => Outcome.staged 20000000) (fun _ => true) 2
        pendManifest).saves.head?.map
      (fun t => (alistGet t "a1").map (fun e => e.status))) =
      some (some DownloadStatus.pending) := by
  exact ⟨rfl, rfl⟩

/-- Sequential application of the legacy per-item updates to a tracks map,
one queue id per step index. -/
def applyItems (attempt : Nat → Outcome) :
    List (String × FavoriteEntry) → List String → Nat →
    List (String × FavoriteEntry)
  | tracks, [], _ => tracks
  | tracks, id :: rest, i =>
      applyItems attempt (alistMap tracks id (legacyItemUpdate i (attempt i)))
        rest (i + 1)

lemma applyItems_get_untouched (attempt : Nat → Outcome) :
    ∀ (ids : List String) tracks i id, id ∉ ids →
      alistGet (applyItems attempt tracks ids i) id = alistGet tracks id := by
  intro ids
  induction ids with
  | nil => intro tracks i id _; rfl
  | cons x rest ih =>
      intro tracks i id hid
      have hx : x ≠ id := fun hh => hid (hh ▸ List.mem_cons_self x rest)
      have hr : id ∉ rest := fun hh => hid (List.mem_cons_of_mem x hh)
      simp only [applyItems]
      rw [ih _ _ _ hr, alistGet_map_ne _ _ _ _ hx]

lemma applyItems_get (attempt : Nat → Outcome) :
    ∀ (ids : List String) tracks i j (hj : j < ids.length), ids.Nodup →
      alistGet (applyItems attempt tracks ids i) (ids.get ⟨j, hj⟩) =
        (alistGet tracks (ids.get ⟨j, hj⟩)).map
          (legacyItemUpdate (i + j) (attempt (i + j))) := by
  intro ids
  induction ids with
  | nil => intro tracks i j hj _; simp at hj
  | cons x rest ih =>
      intro tracks i j hj hnd
      cases j with
      | zero =>
          simp only [List.get]
          have hx : x ∉ rest := (List.nodup_cons.mp hnd).1
          simp only [applyItems]
          rw [applyItems_get_untouched attempt rest _ _ _ hx,
            alistGet_map_self]
          simp
      | succ j' =>
          simp only [List.get, applyItems]
          have hj' : j' < rest.length := by simpa using hj
          rw [ih _ (i + 1) j' hj' (List.nodup_cons.mp hnd).2]
          have hne : x ≠ rest.get ⟨j', hj'⟩ := by
            intro hh
            exact (List.nodup_cons.mp hnd).1 (hh ▸ List.get_mem rest j' hj')
          rw [alistGet_map_ne _ _ _ _ hne]
          have : i + (j' + 1) = i + 1 + j' := by omega
          rw [this]

lemma legacyGo_saves (attempt : Nat → Outcome) (maxFail : Nat) :
    ∀ (rest : List String) i consec tracks saves dcount,
      ∃ n, n ≤ rest.length ∧
        (legacyGo attempt maxFail rest i consec tracks saves dcount).processed =
          i + n ∧
        (legacyGo attempt maxFail rest i consec tracks saves dcount).saves =
          saves ++ (List.range n).map
            (fun j => applyItems attempt tracks (rest.take (j + 1)) i) ∧
        (legacyGo attempt maxFail rest i consec tracks saves dcount).tracks =
          applyItems attempt tracks (rest.take n) i := by
  intro rest
  induction rest with
  | nil =>
      intro i consec tracks saves dcount
      exact ⟨0, by simp, by simp [legacyGo], by simp [legacyGo],
        by simp [legacyGo, applyItems]⟩
  | cons id rest ih =>
      intro i consec tracks saves dcount
      by_cases hbrk : maxFail ≤ (if outcomeFails (attempt i) then consec + 1 else 0)
      · refine ⟨1, by simp, ?_, ?_, ?_⟩
        · simp [legacyGo, hbrk]
        · simp [legacyGo, hbrk, applyItems, List.range_succ]
        · simp [legacyGo, hbrk, applyItems]
      · obtain ⟨n', hn', hproc, hsaves, htracks⟩ :=
          ih (i + 1) (if outcomeFails (attempt i) then consec + 1 else 0)
            (alistMap tracks id (legacyItemUpdate i (attempt i)))
            (saves ++ [alistMap tracks id (legacyItemUpdate i (attempt i))])
            (if outcomeFails (attempt i) then dcount else dcount + 1)
        have hshift : saves ++ (List.range (n' + 1)).map
            (fun j => applyItems attempt tracks ((id :: rest).take (j + 1)) i) =
            (saves ++ [alistMap tracks id (legacyItemUpdate i (attempt i))]) ++
              (List.range n').map (fun j =>
                applyItems attempt
                  (alistMap tracks id (legacyItemUpdate i (attempt i)))
                  (rest.take (j + 1)) (i + 1)) := by
          simp only [List.range_succ_eq_map, List.map_cons, List.map_map]
          rw [show applyItems attempt tracks ((id :: rest).take (0 + 1)) i =
              alistMap tracks id (legacyItemUpdate i (attempt i)) from by
            simp [applyItems]]
          rw [List.append_cons]
          congr 1
        refine ⟨n' + 1, by simpa using hn', ?_, ?_, ?_⟩
        · simp only [legacyGo, if_neg hbrk]
          rw [hproc]
          omega
        · simp only [legacyGo, if_neg hbrk]
          rw [hsaves, hshift]
        · simp only [legacyGo, if_neg hbrk]
          rw [htracks]
          simp [applyItems]

lemma modularGo_saves_ge (attempt : Nat → Outcome) (copyOk : String → Bool)
    (batchSize maxFail : Nat) :
    ∀ (rest : List String) i consec tracks saves dcount batch,
      (modularGo attempt copyOk batchSize maxFail rest i consec tracks saves
          dcount batch).processed - i + saves.length ≤
        (modularGo attempt copyOk batchSize maxFail rest i consec tracks saves
          dcount batch).saves.length := by
  intro rest
  induction rest with
  | nil =>
      intro i consec tracks saves dcount batch
      simp only [modularGo, finishRun]
      by_cases hb : batch.isEmpty
      · simp [hb]
      · simp [hb]
  | cons id rest ih =>
      intro i consec tracks saves dcount batch
      simp only [modularGo]
      by_cases hbrk : maxFail ≤ (if outcomeFails (attempt i) then consec + 1 else 0)
      · simp only [if_pos hbrk, finishRun]
        by_cases hb : ((if outcomeFails (attempt i) then batch else batch ++ [id]).isEmpty)
        · simp [hb]
          omega
        · simp [hb]
          omega
      · simp only [if_neg hbrk]
        by_cases hthr : outcomeThrown (attempt i) = true
        · simp only [if_pos hthr]
          have := ih (i + 1)
            (if outcomeFails (attempt i) then consec + 1 else 0)
            (alistMap tracks id (modularItemUpdate i (attempt i)))
            (saves ++ [alistMap tracks id (modularItemUpdate i (attempt i))])
            dcount
            (if outcomeFails (attempt i) then batch else batch ++ [id])
          simp only [List.length_append, List.length_cons, List.length_nil] at this ⊢
          omega
        · simp only [if_neg hthr]
          by_cases hflush : batchSize ≤
              (if outcomeFails (attempt i) then batch else batch ++ [id]).length
          · simp only [if_pos hflush]
            have := ih (i + 1)
              (if outcomeFails (attempt i) then consec + 1 else 0)
              (promoteBatch copyOk
                (alistMap tracks id (modularItemUpdate i (attempt i)))
                (if outcomeFails (attempt i) then batch else batch ++ [id])
                dcount).1
              ((saves ++ [alistMap tracks id (modularItemUpdate i (attempt i))]) ++
                [(promoteBatch copyOk
                  (alistMap tracks id (modularItemUpdate i (attempt i)))
                  (if outcomeFails (attempt i) then batch else batch ++ [id])
                  dcount).1])
              (promoteBatch copyOk
                (alistMap tracks id (modularItemUpdate i (attempt i)))
                (if outcomeFails (attempt i) then batch else batch ++ [id])
                dcount).2
              []
            simp only [List.length_append, List.length_cons, List.length_nil] at this ⊢
            omega
          · simp only [if_neg hflush]
            have := ih (i + 1)
              (if outcomeFails (attempt i) then consec + 1 else 0)
              (alistMap tracks id (modularItemUpdate i (attempt i)))
              (saves ++ [alistMap tracks id (modularItemUpdate i (attempt i))])
              dcount
              (if outcomeFails (attempt i) then batch else batch ++ [id])
            simp only [List.length_append, List.length_cons, List.length_nil] at this ⊢
            omega

/-- C3 (amended).  Both loops persist the manifest after every single item.
In the legacy loop (`downloadPendingFavorites`) the snapshot persisted after
item k reflects the true outcome of each of items 1..k exactly once — the
entry for the j-th queue item equals its initial value with the j-th per-item
update applied once (acquired with artifact fields on success, failed with a
diagnostic otherwise) — and every entry outside the first k+1 queue items is
unchanged.  In the modular loop (`downloadPendingTracks`) the manifest is
also persisted at least once per processed item, but a successful item is
recorded as acquired only when its batch is promoted (see the
counterexample), so only this weaker per-item persistence holds there. -/
theorem download_persists_each_item (m : Manifest) (attempt : Nat → Outcome)
    (copyOk : String → Bool) (batchSize : Nat)
    (hnodup : (pendingQueue m.tracks).Nodup) :
    (downloadPendingFavorites attempt m).saves.length =
      (downloadPendingFavorites attempt m).processed ∧
    (∀ k, (hk : k < (downloadPendingFavorites attempt m).saves.length) →
      (∀ j, (hj : j < (pendingQueue m.tracks).length) → j ≤ k →
        ∀ e, alistGet m.tracks ((pendingQueue m.tracks).get ⟨j, hj⟩) = some e →
          alistGet ((downloadPendingFavorites attempt m).saves.get ⟨k, hk⟩)
              ((pendingQueue m.tracks).get ⟨j, hj⟩) =
            some (legacyItemUpdate j (attempt j) e)) ∧
      (∀ id, id ∉ (pendingQueue m.tracks).take (k + 1) →
        alistGet ((downloadPendingFavorites attempt m).saves.get ⟨k, hk⟩) id =
          alistGet m.tracks id)) ∧
    (downloadPendingTracks attempt copyOk batchSize m).processed ≤
      (downloadPendingTracks attempt copyOk batchSize m).saves.length := by
  obtain ⟨n, hn, hproc, hsaves, htracks⟩ :=
    legacyGo_saves attempt LEGACY_MAX_FAILURES (pendingQueue m.tracks) 0 0
      m.tracks [] 0
  have hlen : (downloadPendingFavorites attempt m).saves.length = n := by
    show (legacyGo attempt LEGACY_MAX_FAILURES (pendingQueue m.tracks) 0 0
      m.tracks [] 0).saves.length = n
    rw [hsaves]
    simp
  refine ⟨?_, ?_, ?_⟩
  · rw [hlen]
    have hp2 : (downloadPendingFavorites attempt m).processed = 0 + n := hproc
    omega
  · intro k hk
    have hkn : k < n := hlen ▸ hk
    have hksnap : (downloadPendingFavorites attempt m).saves.get ⟨k, hk⟩ =
        applyItems attempt m.tracks ((pendingQueue m.tracks).take (k + 1)) 0 := by
      show (legacyGo attempt LEGACY_MAX_FAILURES (pendingQueue m.tracks) 0 0
        m.tracks [] 0).saves.get ⟨k, hk⟩ = _
      rw [List.get_eq_getElem]
      simp only [hsaves, List.nil_append, List.getElem_map, List.getElem_range]
    constructor
    · intro j hj hjk e he
      have hjtake : j < ((pendingQueue m.tracks).take (k + 1)).length := by
        simp only [List.length_take]
        omega
      have hgeteq : ((pendingQueue m.tracks).take (k + 1)).get ⟨j, hjtake⟩ =
          (pendingQueue m.tracks).get ⟨j, hj⟩ := by
        simp [List.get_eq_getElem, List.getElem_take]
      have hndtake : ((pendingQueue m.tracks).take (k + 1)).Nodup :=
        hnodup.sublist (List.take_sublist _ _)
      have := applyItems_get attempt ((pendingQueue m.tracks).take (k + 1))
        m.tracks 0 j hjtake hndtake
      rw [hksnap, ← hgeteq, this, hgeteq, he]
      simp
    · intro id hid
      rw [hksnap]
      exact applyItems_get_untouched attempt _ m.tracks 0 id hid
  · have := modularGo_saves_ge attempt copyOk batchSize MODULAR_MAX_FAILURES
      (pendingQueue m.tracks) 0 0 m.tracks [] 0 []
    show (modularGo attempt copyOk batchSize MODULAR_MAX_FAILURES
      (pendingQueue m.tracks) 0 0 m.tracks [] 0 []).processed ≤
      (modularGo attempt copyOk batchSize MODULAR_MAX_FAILURES
      (pendingQueue m.tracks) 0 0 m.tracks [] 0 []).saves.length
    simp only [List.length_nil] at this
    omega

theorem download_persists_each_item_witness :
    (downloadPendingFavorites (fun _ => Outcome.staged 20000000)
        pendManifest).saves.length =
      (downloadPendingFavorites (fun _ => Outcome.staged 20000000)
        pendManifest).processed :=
  (download_persists_each_item pendManifest (fun _ => Outcome.staged 20000000)
    (fun _ => true) 2 (by decide)).1

/-- The failure predicate of a run: whether the attempt at step j counts as
a failure. -/
def attemptFails (attempt : Nat → Outcome) : Nat → Bool :=
  fun j => outcomeFails (attempt j)

lemma consecFails_succ (f : Nat → Bool) (k : Nat) :
    consecFails f (k + 1) = if f k then consecFails f k + 1 else 0 := rfl

lemma consecFails_succ_le (f : Nat → Bool) (k : Nat) :
    consecFails f (k + 1) ≤ consecFails f k + 1 := by
  rw [consecFails_succ]
  by_cases h : f k = true
  · simp [h]
  · simp [h]

lemma finishRun_processed (copyOk : String → Bool) (tracks saves dcount batch
    processed stoppedEarly) :
    (finishRun copyOk tracks saves dcount batch processed stoppedEarly).processed =
      processed := by
  unfold finishRun
  by_cases h : batch.isEmpty
  · simp [h]
  · simp [h]

lemma finishRun_stopped (copyOk : String → Bool) (tracks saves dcount batch
    processed stoppedEarly) :
    (finishRun copyOk tracks saves dcount batch processed
      stoppedEarly).stoppedEarly = stoppedEarly := by
  unfold finishRun
  by_cases h : batch.isEmpty
  · simp [h]
  · simp [h]

lemma legacyGo_ctl (attempt : Nat → Outcome) (maxFail : Nat) :
    ∀ (rest : List String) i consec tracks saves dcount,
      consec = consecFails (attemptFails attempt) i →
      consec < maxFail →
      i ≤ (legacyGo attempt maxFail rest i consec tracks saves dcount).processed ∧
      (legacyGo attempt maxFail rest i consec tracks saves dcount).processed ≤
        i + rest.length ∧
      (∀ k, i ≤ k →
        k < (legacyGo attempt maxFail rest i consec tracks saves dcount).processed →
        consecFails (attemptFails attempt) k < maxFail) ∧
      ((legacyGo attempt maxFail rest i consec tracks saves dcount).stoppedEarly =
          true ↔
        maxFail ≤ consecFails (attemptFails attempt)
          (legacyGo attempt maxFail rest i consec tracks saves dcount).processed) ∧
      ((legacyGo attempt maxFail rest i consec tracks saves dcount).stoppedEarly =
          false →
        (legacyGo attempt maxFail rest i consec tracks saves dcount).processed =
          i + rest.length) := by
  intro rest
  induction rest with
  | nil =>
      intro i consec tracks saves dcount hc hlt
      simp only [legacyGo]
      refine ⟨le_refl i, by simp, ?_, ?_, ?_⟩
      · intro k h1 h2
        omega
      · constructor
        · intro hh
          simp at hh
        · intro hh
          rw [← hc] at hh
          omega
      · intro _
        simp
  | cons id rest ih =>
      intro i consec tracks saves dcount hc hlt
      have hc' : (if outcomeFails (attempt i) then consec + 1 else 0) =
          consecFails (attemptFails attempt) (i + 1) := by
        rw [consecFails_succ, hc]
        rfl
      by_cases hbrk : maxFail ≤ (if outcomeFails (attempt i) then consec + 1 else 0)
      · simp only [legacyGo, if_pos hbrk]
        refine ⟨by omega, ?_, ?_, ?_, ?_⟩
        · simp only [List.length_cons]
          omega
        · intro k h1 h2
          have : k = i := by omega
          subst this
          rw [← hc]
          exact hlt
        · rw [← hc']
          exact ⟨fun _ => hbrk, fun _ => by simp⟩
        · intro hh
          simp at hh
      · have hlt' : (if outcomeFails (attempt i) then consec + 1 else 0) < maxFail := by
          omega
        obtain ⟨ih1, ih2, ih3, ih4, ih5⟩ :=
          ih (i + 1) (if outcomeFails (attempt i) then consec + 1 else 0)
            (alistMap tracks id (legacyItemUpdate i (attempt i)))
            (saves ++ [alistMap tracks id (legacyItemUpdate i (attempt i))])
            (if outcomeFails (attempt i) then dcount else dcount + 1)
            hc' hlt'
        simp only [legacyGo, if_neg hbrk]
        refine ⟨by omega, ?_, ?_, ih4, ?_⟩
        · simp only [List.length_cons]
          omega
        · intro k h1 h2
          by_cases hki : k = i
          · subst hki
            rw [← hc]
            exact hlt
          · exact ih3 k (by omega) h2
        · intro hh
          have := ih5 hh
          simp only [List.length_cons]
          omega

lemma modularGo_ctl (attempt : Nat → Outcome) (copyOk : String → Bool)
    (batchSize maxFail : Nat) :
    ∀ (rest : List String) i consec tracks saves dcount batch,
      consec = consecFails (attemptFails attempt) i →
      consec < maxFail →
      i ≤ (modularGo attempt copyOk batchSize maxFail rest i consec tracks saves
        dcount batch).processed ∧
      (modularGo attempt copyOk batchSize maxFail rest i consec tracks saves
        dcount batch).processed ≤ i + rest.length ∧
      (∀ k, i ≤ k →
        k < (modularGo attempt copyOk batchSize maxFail rest i consec tracks
          saves dcount batch).processed →
        consecFails (attemptFails attempt) k < maxFail) ∧
      ((modularGo attempt copyOk batchSize maxFail rest i consec tracks saves
          dcount batch).stoppedEarly = true ↔
        maxFail ≤ consecFails (attemptFails attempt)
          (modularGo attempt copyOk batchSize maxFail rest i consec tracks saves
            dcount batch).processed) ∧
      ((modularGo attempt copyOk batchSize maxFail rest i consec tracks saves
          dcount batch).stoppedEarly = false →
        (modularGo attempt copyOk batchSize maxFail rest i consec tracks saves
          dcount batch).processed = i + rest.length) := by
  intro rest
  induction rest with
  | nil =>
      intro i consec tracks saves dcount batch hc hlt
      simp only [modularGo, finishRun_processed, finishRun_stopped]
      refine ⟨le_refl i, by simp, ?_, ?_, ?_⟩
      · intro k h1 h2
        omega
      · constructor
        · intro hh
          simp at hh
        · intro hh
          rw [← hc] at hh
          omega
      · intro _
        simp
  | cons id rest ih =>
      intro i consec tracks saves dcount batch hc hlt
      have hc' : (if outcomeFails (attempt i) then consec + 1 else 0) =
          consecFails (attemptFails attempt) (i + 1) := by
        rw [consecFails_succ, hc]
        rfl
      by_cases hbrk : maxFail ≤ (if outcomeFails (attempt i) then consec + 1 else 0)
      · simp only [modularGo, if_pos hbrk, finishRun_processed, finishRun_stopped]
        refine ⟨by omega, ?_, ?_, ?_, ?_⟩
        · simp only [List.length_cons]
          omega
        · intro k h1 h2
          have : k = i := by omega
          subst this
          rw [← hc]
          exact hlt
        · rw [← hc']
          exact ⟨fun _ => hbrk, fun _ => by simp⟩
        · intro hh
          simp at hh
      · have hlt' : (if outcomeFails (attempt i) then consec + 1 else 0) < maxFail := by
          omega
        by_cases hthr : outcomeThrown (attempt i) = true
        · obtain ⟨ih1, ih2, ih3, ih4, ih5⟩ :=
            ih (i + 1) (if outcomeFails (attempt i) then consec + 1 else 0)
              (alistMap tracks id (modularItemUpdate i (attempt i)))
              (saves ++ [alistMap tracks id (modularItemUpdate i (attempt i))])
              dcount
              (if outcomeFails (attempt i) then batch else batch ++ [id])
              hc' hlt'
          simp only [modularGo, if_neg hbrk, if_pos hthr]
          refine ⟨by omega, ?_, ?_, ih4, ?_⟩
          · simp only [List.length_cons]
            omega
          · intro k h1 h2
            by_cases hki : k = i
            · subst hki
              rw [← hc]
              exact hlt
            · exact ih3 k (by omega) h2
          · intro hh
            have := ih5 hh
            simp only [List.length_cons]
            omega
        · by_cases hflush : batchSize ≤
              (if outcomeFails (attempt i) then batch else batch ++ [id]).length
          · obtain ⟨ih1, ih2, ih3, ih4, ih5⟩ :=
              ih (i + 1) (if outcomeFails (attempt i) then consec + 1 else 0)
                (promoteBatch copyOk
                  (alistMap tracks id (modularItemUpdate i (attempt i)))
                  (if outcomeFails (attempt i) then batch else batch ++ [id])
                  dcount).1
                ((saves ++ [alistMap tracks id (modularItemUpdate i (attempt i))]) ++
                  [(promoteBatch copyOk
                    (alistMap tracks id (modularItemUpdate i (attempt i)))
                    (if outcomeFails (attempt i) then batch else batch ++ [id])
                    dcount).1])
                (promoteBatch copyOk
                  (alistMap tracks id (modularItemUpdate i (attempt i)))
                  (if outcomeFails (attempt i) then batch else batch ++ [id])
                  dcount).2
                [] hc' hlt'
            simp only [modularGo, if_neg hbrk, if_neg hthr, if_pos hflush]
            refine ⟨by omega, ?_, ?_, ih4, ?_⟩
            · simp only [List.length_cons]
              omega
            · intro k h1 h2
              by_cases hki : k = i
              · subst hki
                rw [← hc]
                exact hlt
              · exact ih3 k (by omega) h2
            · intro hh
              have := ih5 hh
              simp only [List.length_cons]
              omega
          · obtain ⟨ih1, ih2, ih3, ih4, ih5⟩ :=
              ih (i + 1) (if outcomeFails (attempt i) then consec + 1 else 0)
                (alistMap tracks id (modularItemUpdate i (attempt i)))
                (saves ++ [alistMap tracks id (modularItemUpdate i (attempt i))])
                dcount
                (if outcomeFails (attempt i) then batch else batch ++ [id])
                hc' hlt'
            simp only [modularGo, if_neg hbrk, if_neg hthr, if_neg hflush]
            refine ⟨by omega, ?_, ?_, ih4, ?_⟩
            · simp only [List.length_cons]
              omega
            · intro k h1 h2
              by_cases hki : k = i
              · subst hki
                rw [← hc]
                exact hlt
              · exact ih3 k (by omega) h2
            · intro hh
              have := ih5 hh
              simp only [List.length_cons]
              omega

/-- C5.  Both acquisition loops maintain a consecutive-failure counter that
any successful item resets to zero (`consecFails` is exactly that declarative
counter), and they stop processing the remaining queue exactly when the
counter reaches the loop's fixed threshold (20 for the legacy loop, 5 for
the modular loop): strictly before every processed item the counter is below
the threshold (so N non-consecutive total failures never stop the run), a
reported stop occurs iff the counter has just reached the threshold (then it
equals the threshold exactly), and without a stop the whole queue is
processed. -/
theorem circuit_breaker_exact (m : Manifest) (attempt : Nat → Outcome)
    (copyOk : String → Bool) (batchSize : Nat) :
    ((downloadPendingFavorites attempt m).processed ≤
        (pendingQueue m.tracks).length ∧
      (∀ k < (downloadPendingFavorites attempt m).processed,
        consecFails (attemptFails attempt) k < LEGACY_MAX_FAILURES) ∧
      ((downloadPendingFavorites attempt m).stoppedEarly = true ↔
        LEGACY_MAX_FAILURES ≤ consecFails (attemptFails attempt)
          (downloadPendingFavorites attempt m).processed) ∧
      ((downloadPendingFavorites attempt m).stoppedEarly = true →
        consecFails (attemptFails attempt)
          (downloadPendingFavorites attempt m).processed = LEGACY_MAX_FAILURES) ∧
      ((downloadPendingFavorites attempt m).stoppedEarly = false →
        (downloadPendingFavorites attempt m).processed =
          (pendingQueue m.tracks).length)) ∧
    ((downloadPendingTracks attempt copyOk batchSize m).processed ≤
        (pendingQueue m.tracks).length ∧
      (∀ k < (downloadPendingTracks attempt copyOk batchSize m).processed,
        consecFails (attemptFails attempt) k < MODULAR_MAX_FAILURES) ∧
      ((downloadPendingTracks attempt copyOk batchSize m).stoppedEarly = true ↔
        MODULAR_MAX_FAILURES ≤ consecFails (attemptFails attempt)
          (downloadPendingTracks attempt copyOk batchSize m).processed) ∧
      ((downloadPendingTracks attempt copyOk batchSize m).stoppedEarly = true →
        consecFails (attemptFails attempt)
          (downloadPendingTracks attempt copyOk batchSize m).processed =
          MODULAR_MAX_FAILURES) ∧
      ((downloadPendingTracks attempt copyOk batchSize m).stoppedEarly = false →
        (downloadPendingTracks attempt copyOk batchSize m).processed =
          (pendingQueue m.tracks).length)) := by
  simp only [downloadPendingFavorites, downloadPendingTracks]
  obtain ⟨l1, l2, l3, l4, l5⟩ :=
    legacyGo_ctl attempt LEGACY_MAX_FAILURES (pendingQueue m.tracks) 0 0
      m.tracks [] 0 rfl (by decide)
  obtain ⟨m1, m2, m3, m4, m5⟩ :=
    modularGo_ctl attempt copyOk batchSize MODULAR_MAX_FAILURES
      (pendingQueue m.tracks) 0 0 m.tracks [] 0 [] rfl (by decide)
  constructor
  · refine ⟨by simpa using l2, fun k hk => l3 k (Nat.zero_le k) hk, l4, ?_, ?_⟩
    · intro hh
      have hge := l4.mp hh
      set r := legacyGo attempt LEGACY_MAX_FAILURES (pendingQueue m.tracks) 0 0
        m.tracks [] 0 with hr
      have hpos : 0 < r.processed := by
        by_contra hcon
        have hz : r.processed = 0 := by omega
        rw [hz] at hge
        simp [consecFails, LEGACY_MAX_FAILURES] at hge
      have hprev : consecFails (attemptFails attempt) (r.processed - 1) <
          LEGACY_MAX_FAILURES := l3 (r.processed - 1) (Nat.zero_le _) (by omega)
      have hstep := consecFails_succ_le (attemptFails attempt) (r.processed - 1)
      have hsucc : r.processed - 1 + 1 = r.processed := by omega
      rw [hsucc] at hstep
      omega
    · intro hh
      have := l5 hh
      simpa using this
  · refine ⟨by simpa using m2, fun k hk => m3 k (Nat.zero_le k) hk, m4, ?_, ?_⟩
    · intro hh
      have hge := m4.mp hh
      set r := modularGo attempt copyOk batchSize MODULAR_MAX_FAILURES
        (pendingQueue m.tracks) 0 0 m.tracks [] 0 [] with hr
      have hpos : 0 < r.processed := by
        by_contra hcon
        have hz : r.processed = 0 := by omega
        rw [hz] at hge
        simp [consecFails, MODULAR_MAX_FAILURES] at hge
      have hprev : consecFails (attemptFails attempt) (r.processed - 1) <
          MODULAR_MAX_FAILURES := m3 (r.processed - 1) (Nat.zero_le _) (by omega)
      have hstep := consecFails_succ_le (attemptFails attempt) (r.processed - 1)
      have hsucc : r.processed - 1 + 1 = r.processed := by omega
      rw [hsucc] at hstep
      omega
    · intro hh
      have := m5 hh
      simpa using this

theorem circuit_breaker_exact_witness :
    (downloadPendingFavorites (fun _ => Outcome.nofile) pendManifest).processed ≤
      (pendingQueue pendManifest.tracks).length :=
  (circuit_breaker_exact pendManifest (fun _ => Outcome.nofile)
    (fun _ => true) 2).1.1

/-- The public manifest-mutating operations: a reconciliation pass, a
per-item acquisition step of the legacy loop, a per-item staging step of the
modular loop, the promotion of one staged item, and a verifier pass.  The
acquisition-related operations apply only to an existing entry whose status
is pending or failed — the condition under which the loops select an item
into their queue (and into a staged batch). -/
inductive SyncOp where
  | mergeOp (gens : List GenerationData) (umap : List (String × String))
      (listing : Option (List String)) (ext : String)
  | acquireOp (i : Nat) (out : Outcome) (id : String)
  | stageOp (i : Nat) (out : Outcome) (id : String)
  | promoteOp (ok : Bool) (id : String)
  | verifyOp (listing : Option (List String)) (ext : String)

/-- Apply one public operation to a tracks map, reusing the loop-body and
merge definitions. -/
def applySyncOp (ts : List (String × FavoriteEntry)) :
    SyncOp → List (String × FavoriteEntry)
  | .mergeOp gens umap listing ext =>
      (mergeGo umap (driveFileSet listing ext) ext ts gens).1
  | .acquireOp i out id =>
      match alistGet ts id with
      | some e =>
          if e.status = DownloadStatus.pending ∨ e.status = DownloadStatus.failed
          then alistMap ts id (legacyItemUpdate i out)
          else ts
      | none => ts
  | .stageOp i out id =>
      match alistGet ts id with
      | some e =>
          if e.status = DownloadStatus.pending ∨ e.status = DownloadStatus.failed
          then alistMap ts id (modularItemUpdate i out)
          else ts
      | none => ts
  | .promoteOp ok id =>
      match alistGet ts id with
      | some e =>
          if e.status = DownloadStatus.pending ∨ e.status = DownloadStatus.failed
          then alistMap ts id (promoteItemUpdate ok id)
          else ts
      | none => ts
  | .verifyOp listing ext =>
      (verifyDownloadedFiles
        { lastRun := 0, source := "", totalFavorites := none, tracks := ts }
        listing ext).1.tracks

/-- Apply a sequence of public operations in order. -/
def applySyncOps (ts : List (String × FavoriteEntry)) (ops : List SyncOp) :
    List (String × FavoriteEntry) :=
  ops.foldl applySyncOp ts

/-- A per-entry property holding of every entry visible in the map. -/
def AlistInv (P : String → FavoriteEntry → Prop)
    (ts : List (String × FavoriteEntry)) : Prop :=
  ∀ k e, alistGet ts k = some e → P k e

lemma alistMap_alistInv {P : String → FavoriteEntry → Prop}
    (ts : List (String × FavoriteEntry)) (id : String)
    (f : FavoriteEntry → FavoriteEntry)
    (hinv : AlistInv P ts)
    (hf : ∀ e, alistGet ts id = some e → P id (f e)) :
    AlistInv P (alistMap ts id f) := by
  intro k e hk
  by_cases h : id = k
  · subst h
    rw [alistGet_map_self] at hk
    cases hget : alistGet ts id with
    | some e₀ =>
        rw [hget] at hk
        simp at hk
        rw [← hk]
        exact hf e₀ hget
    | none => rw [hget] at hk; simp at hk
  · rw [alistGet_map_ne _ _ _ _ h] at hk
    exact hinv k e hk

lemma append_alistInv {P : String → FavoriteEntry → Prop}
    (ts : List (String × FavoriteEntry)) (k₀ : String) (v : FavoriteEntry)
    (hinv : AlistInv P ts) (hv : P k₀ v) :
    AlistInv P (ts ++ [(k₀, v)]) := by
  intro k e hk
  rw [alistGet_append] at hk
  cases hget : alistGet ts k with
  | some w =>
      rw [hget] at hk
      simp at hk
      rw [← hk]
      exact hinv k w hget
  | none =>
      rw [hget] at hk
      simp only [] at hk
      by_cases h : k₀ = k
      · subst h
        simp [alistGet] at hk
        rw [← hk]
        exact hv
      · simp [alistGet, h] at hk

lemma mergeGo_alistInv {P : String → FavoriteEntry → Prop}
    (umap : List (String × String)) (files : List String) (ext : String)
    (hupd : ∀ (g : GenerationData) id e, P id e → P id (applyMeta umap g e))
    (hnew : ∀ (g : GenerationData), P g.id (newEntry umap files ext g)) :
    ∀ (gens : List GenerationData) ts, AlistInv P ts →
      AlistInv P (mergeGo umap files ext ts gens).1 := by
  intro gens
  induction gens with
  | nil => intro ts h; simpa [mergeGo] using h
  | cons g gs ih =>
      intro ts h
      by_cases hgid : g.id = ""
      · simp only [mergeGo, if_pos hgid]
        exact ih ts h
      · simp only [mergeGo, if_neg hgid]
        cases hget : alistGet ts g.id with
        | some e =>
            exact ih _ (alistMap_alistInv ts g.id _ h
              (fun e₀ h₀ => hupd g g.id e₀ (h g.id e₀ h₀)))
        | none =>
            simp only []
            exact ih _ (append_alistInv ts g.id _ h (hnew g))

lemma verify_alistInv {P : String → FavoriteEntry → Prop}
    (m : Manifest) (listing : Option (List String)) (ext : String)
    (hupd : ∀ drive k e, P k e → P k (verifyEntryUpdate drive ext e))
    (hinv : AlistInv P m.tracks) :
    AlistInv P (verifyDownloadedFiles m listing ext).1.tracks := by
  cases listing with
  | none =>
      have : (verifyDownloadedFiles m none ext).1.tracks = m.tracks := by
        unfold verifyDownloadedFiles
        by_cases hzero : ((m.tracks.map Prod.snd).filter
            (fun t => t.status == DownloadStatus.downloaded)).length = 0
        · rw [if_pos hzero]
        · rw [if_neg hzero]
      rw [this]
      exact hinv
  | some files =>
      rw [verify_tracks_eq]
      intro k e hk
      rw [alistGet_map_values] at hk
      cases hget : alistGet m.tracks k with
      | some e₀ =>
          rw [hget] at hk
          simp at hk
          rw [← hk]
          exact hupd _ k e₀ (hinv k e₀ hget)
      | none => rw [hget] at hk; simp at hk

/-- The §3 invariant: the local artifact name is recorded iff the item is
downloaded. -/
def ArtifactInvP : String → FavoriteEntry → Prop :=
  fun _ e => (e.driveFilename ≠ none ↔ e.status = DownloadStatus.downloaded)

/-- Key–id coherence: every visible entry's id equals its key. -/
def KeyIdP : String → FavoriteEntry → Prop := fun k e => e.id = k

lemma newEntry_artifact (umap : List (String × String)) (files : List String)
    (ext : String) (g : GenerationData) :
    ArtifactInvP g.id (newEntry umap files ext g) := by
  unfold ArtifactInvP newEntry
  by_cases h1 : (g.id ++ ext) ∈ files
  · simp [h1]
  · by_cases h2 : sanitizeFilename
      ((alistGet umap (g.author_id.getD "")).getD "Unknown Artist" ++ " - " ++
        g.title.getD "Untitled" ++ ext) ∈ files
    · simp [h1, h2]
    · simp [h1, h2]

lemma legacyItemUpdate_artifact (i : Nat) (out : Outcome) (e : FavoriteEntry)
    (hnone : e.driveFilename = none) :
    ArtifactInvP e.id (legacyItemUpdate i out e) := by
  unfold ArtifactInvP
  cases out with
  | staged bytes =>
      by_cases hb : DOWNLOAD_MIN_BYTES < bytes
      · simp [legacyItemUpdate, hb]
      · simp [legacyItemUpdate, hb, hnone]
  | nofile => simp [legacyItemUpdate, hnone]
  | thrown msg => simp [legacyItemUpdate, hnone]

lemma modularItemUpdate_artifact (i : Nat) (out : Outcome) (e : FavoriteEntry)
    (hnone : e.driveFilename = none) (hst : e.status ≠ DownloadStatus.downloaded) :
    ArtifactInvP e.id (modularItemUpdate i out e) := by
  unfold ArtifactInvP
  cases out with
  | staged bytes =>
      by_cases hb : DOWNLOAD_MIN_BYTES < bytes
      · simp [modularItemUpdate, hb, hnone, hst]
      · simp [modularItemUpdate, hb, hnone]
  | nofile => simp [modularItemUpdate, hnone]
  | thrown msg => simp [modularItemUpdate, hnone]

lemma promoteItemUpdate_artifact (ok : Bool) (id : String) (e : FavoriteEntry)
    (hnone : e.driveFilename = none) :
    ArtifactInvP e.id (promoteItemUpdate ok id e) := by
  unfold ArtifactInvP
  by_cases h : ok = true
  · simp [promoteItemUpdate, h]
  · have h' : ok = false := by simpa using h
    simp [promoteItemUpdate, h', hnone]

lemma verifyEntryUpdate_artifact (drive : List String) (ext : String)
    (e : FavoriteEntry) (h : ArtifactInvP e.id e) :
    ArtifactInvP e.id (verifyEntryUpdate drive ext e) := by
  unfold ArtifactInvP at h ⊢
  unfold verifyEntryUpdate
  by_cases hc : e.status = DownloadStatus.downloaded ∧
      verifyFound drive ext e = false
  · simp [hc, resetEntry]
  · simp [hc, h]

lemma retriable_driveFilename_none {e : FavoriteEntry}
    (hinv : ArtifactInvP e.id e)
    (hst : e.status = DownloadStatus.pending ∨ e.status = DownloadStatus.failed) :
    e.driveFilename = none := by
  have hne : e.status ≠ DownloadStatus.downloaded := by
    rcases hst with h | h <;> simp [h]
  by_contra hcon
  exact hne (hinv.mp hcon)

lemma applySyncOp_artifact (ts : List (String × FavoriteEntry)) (op : SyncOp)
    (hinv : AlistInv ArtifactInvP ts) :
    AlistInv ArtifactInvP (applySyncOp ts op) := by
  cases op with
  | mergeOp gens umap listing ext =>
      exact mergeGo_alistInv umap (driveFileSet listing ext) ext
        (fun g id e h => h) (fun g => newEntry_artifact _ _ _ g) gens ts hinv
  | acquireOp i out id =>
      simp only [applySyncOp]
      cases hget : alistGet ts id with
      | some e =>
          by_cases hst : e.status = DownloadStatus.pending ∨
              e.status = DownloadStatus.failed
          · simp only [if_pos hst]
            refine alistMap_alistInv ts id _ hinv ?_
            intro e₀ h₀
            have he : e₀ = e := by rw [hget] at h₀; cases h₀; rfl
            subst he
            exact legacyItemUpdate_artifact i out e₀
              (retriable_driveFilename_none (hinv id e₀ h₀) hst)
          · simp only [if_neg hst]
            exact hinv
      | none => exact hinv
  | stageOp i out id =>
      simp only [applySyncOp]
      cases hget : alistGet ts id with
      | some e =>
          by_cases hst : e.status = DownloadStatus.pending ∨
              e.status = DownloadStatus.failed
          · simp only [if_pos hst]
            refine alistMap_alistInv ts id _ hinv ?_
            intro e₀ h₀
            have he : e₀ = e := by rw [hget] at h₀; cases h₀; rfl
            subst he
            have hne : e₀.status ≠ DownloadStatus.downloaded := by
              rcases hst with h | h <;> simp [h]
            exact modularItemUpdate_artifact i out e₀
              (retriable_driveFilename_none (hinv id e₀ h₀) hst) hne
          · simp only [if_neg hst]
            exact hinv
      | none => exact hinv
  | promoteOp ok id =>
      simp only [applySyncOp]
      cases hget : alistGet ts id with
      | some e =>
          by_cases hst : e.status = DownloadStatus.pending ∨
              e.status = DownloadStatus.failed
          · simp only [if_pos hst]
            refine alistMap_alistInv ts id _ hinv ?_
            intro e₀ h₀
            have he : e₀ = e := by rw [hget] at h₀; cases h₀; rfl
            subst he
            exact promoteItemUpdate_artifact ok id e₀
              (retriable_driveFilename_none (hinv id e₀ h₀) hst)
          · simp only [if_neg hst]
            exact hinv
      | none => exact hinv
  | verifyOp listing ext =>
      exact verify_alistInv _ listing ext
        (fun drive k e h => verifyEntryUpdate_artifact drive ext e h) hinv

/-- C8.  In every manifest state reachable by any sequence of the public
operations (merge, a per-item acquisition or staging step, a batch
promotion, verify) from a state satisfying it, an entry's `driveFilename`
(the local artifact name) is populated if and only if that entry's status is
`downloaded`. -/
theorem artifact_name_iff_downloaded (ops : List SyncOp)
    (ts : List (String × FavoriteEntry))
    (hinv : ∀ k e, alistGet ts k = some e →
      (e.driveFilename ≠ none ↔ e.status = DownloadStatus.downloaded)) :
    ∀ k e, alistGet (applySyncOps ts ops) k = some e →
      (e.driveFilename ≠ none ↔ e.status = DownloadStatus.downloaded) := by
  induction ops generalizing ts with
  | nil => exact hinv
  | cons op ops ih =>
      have : applySyncOps ts (op :: ops) = applySyncOps (applySyncOp ts op) ops := rfl
      rw [this]
      exact ih (applySyncOp ts op) (applySyncOp_artifact ts op hinv)

lemma pend_singleton_artifact :
    ∀ k e, alistGet [("a1", pendEntry)] k = some e →
      (e.driveFilename ≠ none ↔ e.status = DownloadStatus.downloaded) := by
  intro k e h
  by_cases hk : "a1" = k
  · rw [← hk] at h
    simp [alistGet] at h
    rw [← h]
    decide
  · simp [alistGet, hk] at h

theorem artifact_name_iff_downloaded_witness :
    ((legacyItemUpdate 0 (Outcome.staged 20000000) pendEntry).driveFilename ≠
        none ↔
      (legacyItemUpdate 0 (Outcome.staged 20000000) pendEntry).status =
        DownloadStatus.downloaded) :=
  artifact_name_iff_downloaded
    [SyncOp.acquireOp 0 (Outcome.staged 20000000) "a1"]
    [("a1", pendEntry)] pend_singleton_artifact "a1"
    (legacyItemUpdate 0 (Outcome.staged 20000000) pendEntry) rfl

lemma legacyItemUpdate_id (i : Nat) (out : Outcome) (e : FavoriteEntry) :
    (legacyItemUpdate i out e).id = e.id := by
  cases out with
  | staged bytes =>
      by_cases hb : DOWNLOAD_MIN_BYTES < bytes
      · simp [legacyItemUpdate, hb]
      · simp [legacyItemUpdate, hb]
  | nofile => simp [legacyItemUpdate]
  | thrown msg => simp [legacyItemUpdate]

lemma modularItemUpdate_id (i : Nat) (out : Outcome) (e : FavoriteEntry) :
    (modularItemUpdate i out e).id = e.id := by
  cases out with
  | staged bytes =>
      by_cases hb : DOWNLOAD_MIN_BYTES < bytes
      · simp [modularItemUpdate, hb]
      · simp [modularItemUpdate, hb]
  | nofile => simp [modularItemUpdate]
  | thrown msg => simp [modularItemUpdate]

lemma promoteItemUpdate_id (ok : Bool) (id : String) (e : FavoriteEntry) :
    (promoteItemUpdate ok id e).id = e.id := by
  by_cases h : ok = true
  · simp [promoteItemUpdate, h]
  · have h' : ok = false := by simpa using h
    simp [promoteItemUpdate, h']

lemma verifyEntryUpdate_id (drive : List String) (ext : String)
    (e : FavoriteEntry) : (verifyEntryUpdate drive ext e).id = e.id := by
  unfold verifyEntryUpdate
  by_cases hc : e.status = DownloadStatus.downloaded ∧
      verifyFound drive ext e = false
  · simp [hc, resetEntry]
  · simp [hc]

lemma verify_tracks_none (m : Manifest) (ext : String) :
    (verifyDownloadedFiles m none ext).1.tracks = m.tracks := by
  unfold verifyDownloadedFiles
  by_cases hzero : ((m.tracks.map Prod.snd).filter
      (fun t => t.status == DownloadStatus.downloaded)).length = 0
  · rw [if_pos hzero]
  · rw [if_neg hzero]

lemma alistGet_map_isSome {α : Type} (ts : List (String × α)) (id : String)
    (f : α → α) (k : String) (h : (alistGet ts k).isSome = true) :
    (alistGet (alistMap ts id f) k).isSome = true := by
  by_cases hk : id = k
  · subst hk
    rw [alistGet_map_self]
    cases hget : alistGet ts id with
    | some v => simp
    | none => rw [hget] at h; simp at h
  · rwa [alistGet_map_ne _ _ _ _ hk]

lemma applySyncOp_isSome (ts : List (String × FavoriteEntry)) (op : SyncOp)
    (k : String) (h : (alistGet ts k).isSome = true) :
    (alistGet (applySyncOp ts op) k).isSome = true := by
  cases op with
  | mergeOp gens umap listing ext =>
      exact mergeGo_isSome_mono umap (driveFileSet listing ext) ext gens ts k h
  | acquireOp i out id =>
      simp only [applySyncOp]
      cases hget : alistGet ts id with
      | some e =>
          by_cases hst : e.status = DownloadStatus.pending ∨
              e.status = DownloadStatus.failed
          · simp only [if_pos hst]
            exact alistGet_map_isSome ts id _ k h
          · simp only [if_neg hst]
            exact h
      | none => exact h
  | stageOp i out id =>
      simp only [applySyncOp]
      cases hget : alistGet ts id with
      | some e =>
          by_cases hst : e.status = DownloadStatus.pending ∨
              e.status = DownloadStatus.failed
          · simp only [if_pos hst]
            exact alistGet_map_isSome ts id _ k h
          · simp only [if_neg hst]
            exact h
      | none => exact h
  | promoteOp ok id =>
      simp only [applySyncOp]
      cases hget : alistGet ts id with
      | some e =>
          by_cases hst : e.status = DownloadStatus.pending ∨
              e.status = DownloadStatus.failed
          · simp only [if_pos hst]
            exact alistGet_map_isSome ts id _ k h
          · simp only [if_neg hst]
            exact h
      | none => exact h
  | verifyOp listing ext =>
      cases listing with
      | none =>
          show (alistGet (verifyDownloadedFiles
            { lastRun := 0, source := "", totalFavorites := none, tracks := ts }
            none ext).1.tracks k).isSome = true
          rw [verify_tracks_none]
          exact h
      | some files =>
          show (alistGet (verifyDownloadedFiles
            { lastRun := 0, source := "", totalFavorites := none, tracks := ts }
            (some files) ext).1.tracks k).isSome = true
          rw [verify_tracks_eq, alistGet_map_values]
          cases hget : alistGet ts k with
          | some v => simp
          | none => rw [hget] at h; simp at h

lemma applySyncOp_keyId (ts : List (String × FavoriteEntry)) (op : SyncOp)
    (hinv : AlistInv KeyIdP ts) : AlistInv KeyIdP (applySyncOp ts op) := by
  cases op with
  | mergeOp gens umap listing ext =>
      exact mergeGo_alistInv umap (driveFileSet listing ext) ext
        (fun g id e h => h) (fun g => rfl) gens ts hinv
  | acquireOp i out id =>
      simp only [applySyncOp]
      cases hget : alistGet ts id with
      | some e =>
          by_cases hst : e.status = DownloadStatus.pending ∨
              e.status = DownloadStatus.failed
          · simp only [if_pos hst]
            refine alistMap_alistInv ts id _ hinv ?_
            intro e₀ h₀
            show (legacyItemUpdate i out e₀).id = id
            rw [legacyItemUpdate_id]
            exact hinv id e₀ h₀
          · simp only [if_neg hst]
            exact hinv
      | none => exact hinv
  | stageOp i out id =>
      simp only [applySyncOp]
      cases hget : alistGet ts id with
      | some e =>
          by_cases hst : e.status = DownloadStatus.pending ∨
              e.status = DownloadStatus.failed
          · simp only [if_pos hst]
            refine alistMap_alistInv ts id _ hinv ?_
            intro e₀ h₀
            show (modularItemUpdate i out e₀).id = id
            rw [modularItemUpdate_id]
            exact hinv id e₀ h₀
          · simp only [if_neg hst]
            exact hinv
      | none => exact hinv
  | promoteOp ok id =>
      simp only [applySyncOp]
      cases hget : alistGet ts id with
      | some e =>
          by_cases hst : e.status = DownloadStatus.pending ∨
              e.status = DownloadStatus.failed
          · simp only [if_pos hst]
            refine alistMap_alistInv ts id _ hinv ?_
            intro e₀ h₀
            show (promoteItemUpdate ok id e₀).id = id
            rw [promoteItemUpdate_id]
            exact hinv id e₀ h₀
          · simp only [if_neg hst]
            exact hinv
      | none => exact hinv
  | verifyOp listing ext =>
      refine verify_alistInv _ listing ext ?_ hinv
      intro drive k e h
      show (verifyEntryUpdate drive ext e).id = k
      rw [verifyEntryUpdate_id]
      exact h

/-- C10.  Every public operation preserves key–id coherence — after any
sequence of merge, per-item acquisition/staging updates, batch promotion and
verify, the entry stored under key k still has id = k — and no operation
ever removes an existing key. -/
theorem key_id_coherence_preserved (ops : List SyncOp)
    (ts : List (String × FavoriteEntry))
    (hco : ∀ k e, alistGet ts k = some e → e.id = k) :
    (∀ k e, alistGet (applySyncOps ts ops) k = some e → e.id = k) ∧
    (∀ k, (alistGet ts k).isSome = true →
      (alistGet (applySyncOps ts ops) k).isSome = true) := by
  induction ops generalizing ts with
  | nil => exact ⟨hco, fun k h => h⟩
  | cons op ops ih =>
      have hstep : applySyncOps ts (op :: ops) =
          applySyncOps (applySyncOp ts op) ops := rfl
      rw [hstep]
      obtain ⟨c1, c2⟩ := ih (applySyncOp ts op) (applySyncOp_keyId ts op hco)
      exact ⟨c1, fun k h => c2 k (applySyncOp_isSome ts op k h)⟩

lemma pend_singleton_keyId :
    ∀ k e, alistGet [("a1", pendEntry)] k = some e → e.id = k := by
  intro k e h
  by_cases hk : "a1" = k
  · rw [← hk] at h ⊢
    simp [alistGet] at h
    rw [← h]
    rfl
  · simp [alistGet, hk] at h

theorem key_id_coherence_preserved_witness :
    (legacyItemUpdate 0 Outcome.nofile pendEntry).id = "a1" ∧
    (alistGet (applySyncOps [("a1", pendEntry)]
      [SyncOp.acquireOp 0 Outcome.nofile "a1"]) "a1").isSome = true :=
  ⟨(key_id_coherence_preserved [SyncOp.acquireOp 0 Outcome.nofile "a1"]
      [("a1", pendEntry)] pend_singleton_keyId).1 "a1"
      (legacyItemUpdate 0 Outcome.nofile pendEntry) rfl,
    (key_id_coherence_preserved [SyncOp.acquireOp 0 Outcome.nofile "a1"]
      [("a1", pendEntry)] pend_singleton_keyId).2 "a1" rfl⟩

end ProducerAiSync
